import Mathlib

/-!
Verification of the email-candidate extraction and validation pipeline of
`src/extractor.py` (`ProductionEmailExtractor`).  The Python source is shallowly
embedded: strings become `List Char`, the regular expressions of the extractor
are hand-compiled into backtracking matchers whose search order mirrors Python's
leftmost-then-greedy `re` semantics, the DNS resolver and the third-party
`email_validator` library are modelled as explicit parameters/functions, and the
stages (`_extract_candidates`, `_normalize_emails`, `_validate_syntax_batch`,
`_validate_dns_batch`, `_check_mx_with_fallback`, `_score_emails`,
`_score_to_confidence`, `_final_filter`) become executable Lean functions.
All page text handled by the pipeline is ASCII, so ASCII case conversion
faithfully models Python's `str.lower` / `re.IGNORECASE` here.
-/

/-! ## Character classes (ASCII, as used by the extractor's regexes) -/

/-- Lower-case image of an ASCII character code, as used by `str.lower()` and
`re.IGNORECASE` on the ASCII text this pipeline handles. -/
def lowerNat (c : Char) : Nat :=
  if 65 ≤ c.toNat ∧ c.toNat ≤ 90 then c.toNat + 32 else c.toNat

/-- ASCII `str.lower()` on one character. -/
def toLowerChar (c : Char) : Char :=
  if 65 ≤ c.toNat ∧ c.toNat ≤ 90 then Char.ofNat (c.toNat + 32) else c

/-- ASCII `str.lower()` on a string. -/
def lowerList (l : List Char) : List Char := l.map toLowerChar

/-- Case-insensitive character comparison (`re.IGNORECASE`). -/
def ciEqChar (a b : Char) : Bool := lowerNat a = lowerNat b

/-- The class `[a-z]`. -/
def isLowerChar (c : Char) : Bool := 97 ≤ c.toNat ∧ c.toNat ≤ 122

/-- The class `[A-Z]`. -/
def isUpperChar (c : Char) : Bool := 65 ≤ c.toNat ∧ c.toNat ≤ 90

/-- The class `[a-zA-Z]`. -/
def isAlphaChar (c : Char) : Bool := isLowerChar c || isUpperChar c

/-- The class `[0-9]`. -/
def isDigitChar (c : Char) : Bool := 48 ≤ c.toNat ∧ c.toNat ≤ 57

/-- The class `[a-zA-Z0-9]`. -/
def isAlnumChar (c : Char) : Bool := isAlphaChar c || isDigitChar c

/-- regex word character (`\w` / `\b` boundary test): `[a-zA-Z0-9_]`. -/
def isWordChar (c : Char) : Bool := isAlnumChar c || c = '_'

/-- the local-part class `[a-zA-Z0-9._%+-]` of the extractor's patterns. -/
def isLocalChar (c : Char) : Bool :=
  isAlnumChar c || c = '.' || c = '_' || c = '%' || c = '+' || c = '-'

/-- the domain class `[a-zA-Z0-9.-]` of the extractor's patterns. -/
def isDomainChar (c : Char) : Bool := isAlnumChar c || c = '.' || c = '-'

/-- Python `\s` on ASCII text: space, tab, newline, carriage return,
vertical tab, form feed. -/
def isSpacePy (c : Char) : Bool :=
  c = ' ' || c = '\t' || c = '\n' || c = '\r' ||
  c.toNat = 11 || c.toNat = 12

/-- the class `[\[\(]` (opening bracket or parenthesis). -/
def isOpenPB (c : Char) : Bool := c = '[' || c = '('

/-- the class `[\]\)]` (closing bracket or parenthesis). -/
def isClosePB (c : Char) : Bool := c = ']' || c = ')'

/-- The class `[0-9.]` of the numeric exclusion patterns. -/
def isDigitDot (c : Char) : Bool := isDigitChar c || c = '.'

/-! ## Basic list helpers -/

/-- The slice `t[a:b]` (Python slicing with `a ≤ b` clipped at the ends). -/
def sliceL (t : List Char) (a b : Nat) : List Char := (t.drop a).take (b - a)

/-- Length of the longest run of characters satisfying `p` starting at
position `i`, capped at `cap`. -/
def runLen (p : Char → Bool) (t : List Char) : Nat → Nat → Nat
  | _, 0 => 0
  | i, cap + 1 =>
    match t.get? i with
    | some c => if p c then runLen p t (i + 1) cap + 1 else 0
    | none => 0

/-- The list `[top, top-1, ..., top-count+1]`: candidate end positions of a greedy
bounded repetition, in backtracking priority order (longest first). -/
def descList (top : Nat) : Nat → List Nat
  | 0 => []
  | c + 1 => top :: descList (top - 1) c

/-- First index at which the pattern `pat` occurs as a contiguous sublist of
`t` (Python `str.find` / the `in` operator). -/
def indexOfSub (t pat : List Char) : Option Nat :=
  go t pat 0 (t.length + 1)
where
  go (t pat : List Char) : Nat → Nat → Option Nat
    | _, 0 => none
    | i, fuel + 1 =>
      if (t.drop i).take pat.length = pat then some i
      else if i < t.length then go t pat (i + 1) fuel else none

/-- Python `pat in t` (contiguous sublist). -/
def containsSub (t pat : List Char) : Bool := (indexOfSub t pat).isSome

/-- Case-insensitive form of `containsSub` (`re.IGNORECASE` substring
exclusions). -/
def containsSubCi (t pat : List Char) : Bool :=
  containsSub (lowerList t) (lowerList pat)

/-- Python `t.startswith(pat)`. -/
def startsWithL (t pat : List Char) : Bool := t.take pat.length = pat

/-- Python `t.endswith(pat)`. -/
def endsWithL (t pat : List Char) : Bool :=
  startsWithL t.reverse pat.reverse

/-- Trim characters satisfying `p` from both ends (Python `str.strip`). -/
def trimBoth (p : Char → Bool) (l : List Char) : List Char :=
  ((l.dropWhile p).reverse.dropWhile p).reverse

/-- Trim characters satisfying `p` from the right end (Python `str.rstrip`). -/
def trimRight (p : Char → Bool) (l : List Char) : List Char :=
  (l.reverse.dropWhile p).reverse

/-- Python `str.split(sep)` on a one-character separator:
`splitOnChar '@' "a@b" = ["a", "b"]`, `splitOnChar '@' "" = [""]`. -/
def splitOnChar (sep : Char) : List Char → List (List Char)
  | [] => [[]]
  | c :: cs =>
    if c = sep then [] :: splitOnChar sep cs
    else
      match splitOnChar sep cs with
      | g :: gs => (c :: g) :: gs
      | [] => [[c]]

/-! ## Backtracking regex combinators

A `Matcher` sends a text and a start position to the list of possible end
positions, in Python-`re` backtracking priority order.  `(m t i).head?` is
the end of the match `re` would report at position `i` (leftmost-first,
greedy with backtracking), `[]` means no match at `i`. -/

abbrev Matcher := List Char → Nat → List Nat

/-- One character of class `p`. -/
def mClass (p : Char → Bool) : Matcher := fun t i =>
  match t.get? i with
  | some c => if p c then [i + 1] else []
  | none => []

/-- The literal character `c`. -/
def mChar (c : Char) : Matcher := fun t i =>
  if t.get? i = some c then [i + 1] else []

/-- Greedy bounded repetition `p{lo,hi}` of a one-character class: end
positions are offered longest-first, exactly as `re` backtracks. -/
def mClassRep (p : Char → Bool) (lo hi : Nat) : Matcher := fun t i =>
  let r := runLen p t i hi
  if lo ≤ r then descList (i + r) (r + 1 - lo) else []

/-- Star `p*` (greedy). -/
def mStar (p : Char → Bool) : Matcher := fun t i => mClassRep p 0 t.length t i

/-- Plus `p+` (greedy). -/
def mPlus (p : Char → Bool) : Matcher := fun t i => mClassRep p 1 t.length t i

/-- Option `p?` (greedy: try consuming first). -/
def mOptC (p : Char → Bool) : Matcher := fun t i =>
  (match t.get? i with
   | some c => if p c then [i + 1] else []
   | none => []) ++ [i]

/-- Case-insensitive literal (all patterns are compiled with
`re.IGNORECASE`). -/
def mLitCi (s : List Char) : Matcher := fun t i =>
  if ciMatch t i s then [i + s.length] else []
where
  ciMatch (t : List Char) (i : Nat) : List Char → Bool
    | [] => true
    | c :: cs =>
      match t.get? i with
      | some d => ciEqChar d c && ciMatch t (i + 1) cs
      | none => false

/-- Ordered alternation of case-insensitive literals
(`(?:email|e-mail|contact|reach)` and friends): alternatives are tried in
source order, as `re` does. -/
def mAltLits (ss : List (List Char)) : Matcher := fun t i =>
  ss.flatMap (fun s => mLitCi s t i)

/-- Sequencing: all end positions of `a` are tried in priority order, and for
each of them all end positions of `b`; `List.flatMap` preserves exactly the
lexicographic backtracking order of `re`. -/
def mSeq (a b : Matcher) : Matcher := fun t i => (a t i).flatMap (b t)

/-- The empty matcher (used to terminate `mSeqs` chains). -/
def mEps : Matcher := fun _ i => [i]

/-- Right-nested sequencing of a whole pattern given as a component list. -/
def mSeqs (ms : List Matcher) : Matcher := ms.foldr mSeq mEps

/-- Is position `i` on a word character (out-of-range counts as non-word)? -/
def wordAt (t : List Char) (i : Nat) : Bool :=
  match t.get? i with
  | some c => isWordChar c
  | none => false

/-- The zero-width assertion `\b`: succeeds (consuming nothing) iff the
wordness of the previous character differs from that of the current one. -/
def mBound : Matcher := fun t i =>
  if (if i = 0 then false else wordAt t (i - 1)) = wordAt t i then []
  else [i]

/-- The overall match `re` reports at position `i`, if any. -/
def matchAt (m : Matcher) (t : List Char) (i : Nat) : Option Nat :=
  (m t i).head?

/-! ## The seven candidate patterns of `_extract_candidates`

Each pattern is compiled `re.IGNORECASE` and scanned with `re.findall`.
A pattern yields, at a given start position, `some (captured, resume)` where
`captured` is what `findall` collects (the whole match, or capture group 1
for the three patterns that have one) and `resume` is the end of the whole
match (where the scan continues). -/

/-- Pattern 1, standard emails:
`\b[a-zA-Z0-9][a-zA-Z0-9._%+-]{0,63}@[a-zA-Z0-9][a-zA-Z0-9.-]{0,253}\.[a-zA-Z]{2,63}\b` -/
def matcher1 : Matcher :=
  mSeq mBound (mSeq (mClass isAlnumChar) (mSeq (mClassRep isLocalChar 0 63)
    (mSeq (mChar '@') (mSeq (mClass isAlnumChar)
      (mSeq (mClassRep isDomainChar 0 253)
        (mSeq (mChar '.') (mSeq (mClassRep isAlphaChar 2 63) mBound)))))))

def pm1 (t : List Char) (i : Nat) : Option (List Char × Nat) :=
  (matchAt matcher1 t i).map (fun e => (sliceL t i e, e))

/-- Pattern 2, plus addressing:
`\b[a-zA-Z0-9._%+-]+\+[a-zA-Z0-9._%+-]+@[a-zA-Z0-9.-]+\.[a-zA-Z]{2,}\b` -/
def matcher2 : Matcher := fun t i =>
  (mSeq mBound (mSeq (mPlus isLocalChar) (mSeq (mChar '+')
    (mSeq (mPlus isLocalChar) (mSeq (mChar '@') (mSeq (mPlus isDomainChar)
      (mSeq (mChar '.') (mSeq (mClassRep isAlphaChar 2 t.length) mBound)))))))) t i

def pm2 (t : List Char) (i : Nat) : Option (List Char × Nat) :=
  (matchAt matcher2 t i).map (fun e => (sliceL t i e, e))

/-- Pattern 3, obfuscated `user [at] domain [dot] com`:
`\b[a-zA-Z0-9._%+-]+\s*[\[\(]?\s*at\s*[\]\)]?\s*[a-zA-Z0-9.-]+\s*[\[\(]?\s*dot\s*[\]\)]?\s*[a-zA-Z]{2,}\b` -/
def matcher3 : Matcher := fun t i =>
  mSeqs [mBound, mPlus isLocalChar, mStar isSpacePy, mOptC isOpenPB,
    mStar isSpacePy, mLitCi ['a', 't'], mStar isSpacePy, mOptC isClosePB,
    mStar isSpacePy, mPlus isDomainChar, mStar isSpacePy, mOptC isOpenPB,
    mStar isSpacePy, mLitCi ['d', 'o', 't'], mStar isSpacePy,
    mOptC isClosePB, mStar isSpacePy, mClassRep isAlphaChar 2 t.length,
    mBound] t i

def pm3 (t : List Char) (i : Nat) : Option (List Char × Nat) :=
  (matchAt matcher3 t i).map (fun e => (sliceL t i e, e))

/-- Pattern 4, obfuscated `user AT domain DOT com` (IGNORECASE makes the
upper-case literals equivalent to pattern 3's, but the whitespace is
mandatory and no brackets are allowed):
`\b[a-zA-Z0-9._%+-]+\s+AT\s+[a-zA-Z0-9.-]+\s+DOT\s+[a-zA-Z]{2,}\b` -/
def matcher4 : Matcher := fun t i =>
  mSeqs [mBound, mPlus isLocalChar, mPlus isSpacePy, mLitCi ['a', 't'],
    mPlus isSpacePy, mPlus isDomainChar, mPlus isSpacePy,
    mLitCi ['d', 'o', 't'], mPlus isSpacePy,
    mClassRep isAlphaChar 2 t.length, mBound] t i

def pm4 (t : List Char) (i : Nat) : Option (List Char × Nat) :=
  (matchAt matcher4 t i).map (fun e => (sliceL t i e, e))

/-- The capture group shared by patterns 5-7:
`[a-zA-Z0-9._%+-]+@[a-zA-Z0-9.-]+\.[a-zA-Z]{2,}` -/
def coreEmail : Matcher := fun t i =>
  (mSeq (mPlus isLocalChar) (mSeq (mChar '@') (mSeq (mPlus isDomainChar)
    (mSeq (mChar '.') (mClassRep isAlphaChar 2 t.length))))) t i

/-- Pattern 5, mailto links: `mailto:\s*([a-zA-Z0-9._%+-]+@[a-zA-Z0-9.-]+\.[a-zA-Z]{2,})`.
`findall` collects group 1 and the scan resumes at the end of the whole
match (which here is also the end of the group). -/
def pm5 (t : List Char) (i : Nat) : Option (List Char × Nat) :=
  ((mSeq (mLitCi ['m', 'a', 'i', 'l', 't', 'o', ':']) (mStar isSpacePy) t i).flatMap
      (fun g => (coreEmail t g).map (fun e => (g, e)))).head?.map
    (fun p => (sliceL t p.1 p.2, p.2))

/-- Pattern 6, emails in parentheses or brackets:
`[\(\[]\s*([a-zA-Z0-9._%+-]+@[a-zA-Z0-9.-]+\.[a-zA-Z]{2,})\s*[\)\]]` -/
def pm6 (t : List Char) (i : Nat) : Option (List Char × Nat) :=
  ((mSeq (mClass isOpenPB) (mStar isSpacePy) t i).flatMap (fun g =>
      (coreEmail t g).flatMap (fun k =>
        (mSeq (mStar isSpacePy) (mClass isClosePB) t k).map
          (fun e => (g, k, e))))).head?.map
    (fun p => (sliceL t p.1 p.2.1, p.2.2))

/-- Pattern 7, emails after a contextual label:
`(?:email|e-mail|contact|reach):\s*([a-zA-Z0-9._%+-]+@[a-zA-Z0-9.-]+\.[a-zA-Z]{2,})` -/
def pm7 (t : List Char) (i : Nat) : Option (List Char × Nat) :=
  ((mSeq (mAltLits [['e', 'm', 'a', 'i', 'l'], ['e', '-', 'm', 'a', 'i', 'l'],
        ['c', 'o', 'n', 't', 'a', 'c', 't'], ['r', 'e', 'a', 'c', 'h']])
      (mSeq (mChar ':') (mStar isSpacePy)) t i).flatMap
    (fun g => (coreEmail t g).map (fun e => (g, e)))).head?.map
    (fun p => (sliceL t p.1 p.2, p.2))

/-- The `re.findall` scan: try each position left to right; on a match,
collect the captured text and resume at the end of the whole match (our
patterns never match the empty string, the `i < e` guard only documents
this for termination). -/
def scanA (pm : List Char → Nat → Option (List Char × Nat))
    (t : List Char) : Nat → Nat → List (List Char)
  | 0, _ => []
  | fuel + 1, i =>
    match pm t i with
    | some (cap, e) =>
      if i < e then cap :: scanA pm t fuel e
      else if i < t.length then scanA pm t fuel (i + 1) else []
    | none => if i < t.length then scanA pm t fuel (i + 1) else []

def findallOf (pm : List Char → Nat → Option (List Char × Nat))
    (t : List Char) : List (List Char) :=
  scanA pm t (t.length + 1) 0

def findall1 (t : List Char) : List (List Char) := findallOf pm1 t
def findall2 (t : List Char) : List (List Char) := findallOf pm2 t
def findall3 (t : List Char) : List (List Char) := findallOf pm3 t
def findall4 (t : List Char) : List (List Char) := findallOf pm4 t
def findall5 (t : List Char) : List (List Char) := findallOf pm5 t
def findall6 (t : List Char) : List (List Char) := findallOf pm6 t
def findall7 (t : List Char) : List (List Char) := findallOf pm7 t

/-- Stage `_extract_candidates`: run every pattern over the text and collect the
stripped matches into a set.  (Python's `set` is modelled as a list
deduplicated in first-discovery order; no claim depends on set iteration
order.  The `isinstance(match, tuple)` branch of the source never fires
because no pattern has more than one capture group, in which case
`re.findall` returns plain strings; matches are non-empty by construction
so the `if match` guard always passes.) -/
def extractCandidates (t : List Char) : List (List Char) :=
  ((findall1 t ++ findall2 t ++ findall3 t ++ findall4 t ++
    findall5 t ++ findall6 t ++ findall7 t).map (trimBoth isSpacePy)).dedup

/-! ## `_normalize_emails` -/

/-- Shorthand for string-literal character lists. -/
def strL (s : String) : List Char := s.data

/-- The sub pattern `\s*[\[\(]?\s*at\s*[\]\)]?\s*` (replaced by `@`).
Note every component except the literal `at` is optional, so a bare `at`
anywhere in the candidate is also replaced. -/
def atPat : Matcher := fun t i =>
  mSeqs [mStar isSpacePy, mOptC isOpenPB, mStar isSpacePy, mLitCi ['a', 't'],
    mStar isSpacePy, mOptC isClosePB, mStar isSpacePy] t i

/-- The sub pattern `\s*[\[\(]?\s*dot\s*[\]\)]?\s*` (replaced by `.`). -/
def dotPat : Matcher := fun t i =>
  mSeqs [mStar isSpacePy, mOptC isOpenPB, mStar isSpacePy,
    mLitCi ['d', 'o', 't'], mStar isSpacePy, mOptC isClosePB,
    mStar isSpacePy] t i

/-- Python `re.sub(m, r, t)` for a single-character replacement: leftmost
non-overlapping matches are replaced, scanning resumes at each match end.
(The two sub patterns used here always consume at least the two literal
characters, so the zero-width guard never fires.) -/
def subA (m : Matcher) (r : Char) (t : List Char) : Nat → Nat → List Char
  | 0, _ => []
  | fuel + 1, i =>
    if i < t.length then
      match matchAt m t i with
      | some e =>
        if i < e then r :: subA m r t fuel e
        else t.getD i ' ' :: subA m r t fuel (i + 1)
      | none => t.getD i ' ' :: subA m r t fuel (i + 1)
    else []

def subAll (m : Matcher) (r : Char) (t : List Char) : List Char :=
  subA m r t (t.length + 1) 0

/-- The strip set of `cleaned.strip('"\'"()[]<> ')`: double quote, single
quote, parentheses, brackets, angle brackets and space. -/
def strip1Set (c : Char) : Bool :=
  c = Char.ofNat 34 || c = Char.ofNat 39 || c = '(' || c = ')' ||
  c = '[' || c = ']' || c = '<' || c = '>' || c = ' '

/-- The strip set of `cleaned.rstrip('.,;:')`. -/
def rstripSet (c : Char) : Bool := c = '.' || c = ',' || c = ';' || c = ':'

/-- Extensions of exclusion pattern 1: `@.*\.(png|jpg|jpeg|gif|svg|webp|pdf|css|js)$`. -/
def fileExts : List (List Char) :=
  [strL "png", strL "jpg", strL "jpeg", strL "gif", strL "svg",
   strL "webp", strL "pdf", strL "css", strL "js"]

/-- Search (`re.search`) of `@` followed by `.*` (no newline) up to position `d`:
true iff some `@` occurs before `d` with no newline strictly between. -/
def atBeforeNoNl (t : List Char) : Nat → Bool
  | 0 => false
  | j + 1 =>
    match t.get? j with
    | some c => if c = '@' then true else if c = '\n' then false else atBeforeNoNl t j
    | none => atBeforeNoNl t j

/-- Exclusion 1: `@.*\.(png|jpg|jpeg|gif|svg|webp|pdf|css|js)$`. -/
def excl1 (t : List Char) : Bool :=
  fileExts.any fun ext =>
    endsWithL (lowerList t) ('.' :: ext) &&
    atBeforeNoNl t (t.length - (ext.length + 1))

/-- Exclusion 2: `^[0-9.]+@` (starts with numbers/dots only). -/
def excl2 (t : List Char) : Bool :=
  let r := runLen isDigitDot t 0 t.length
  decide (1 ≤ r) && decide (t.get? r = some '@')

/-- Exclusion 3: `@[0-9.]+$` (domain is only numbers/dots). -/
def excl3 (t : List Char) : Bool :=
  let u := t.reverse
  let r := runLen isDigitDot u 0 u.length
  decide (1 ≤ r) && decide (u.get? r = some '@')

/-- Exclusion 4: `@example\.(com|org|net)`. -/
def excl4 (t : List Char) : Bool :=
  containsSubCi t (strL "@example.com") || containsSubCi t (strL "@example.org") ||
  containsSubCi t (strL "@example.net")

/-- Exclusion 5: `@test\.`. -/
def excl5 (t : List Char) : Bool := containsSubCi t (strL "@test.")

/-- Exclusion 6: `^(test|demo|sample|example)`. -/
def excl6 (t : List Char) : Bool :=
  startsWithL (lowerList t) (strL "test") || startsWithL (lowerList t) (strL "demo") ||
  startsWithL (lowerList t) (strL "sample") || startsWithL (lowerList t) (strL "example")

/-- Exclusion 7: `@(localhost|127\.0\.0\.1)`. -/
def excl7 (t : List Char) : Bool :=
  containsSubCi t (strL "@localhost") || containsSubCi t (strL "@127.0.0.1")

/-- Exclusion 8: `\.\.[a-z]` (double dots), `[a-z]` case-insensitive. -/
def excl8 : List Char → Bool
  | a :: b :: c :: rest =>
    (a = '.' && b = '.' && isAlphaChar c) || excl8 (b :: c :: rest)
  | _ => false

/-- The test `any(re.search(pattern, cleaned, re.IGNORECASE) for pattern in
self.exclusion_patterns)`. -/
def exclAny (t : List Char) : Bool :=
  excl1 t || excl2 t || excl3 t || excl4 t ||
  excl5 t || excl6 t || excl7 t || excl8 t

/-- The set `self.forbidden_extensions`. -/
def forbiddenExts : List (List Char) :=
  [strL "png", strL "jpg", strL "jpeg", strL "gif", strL "svg", strL "webp",
   strL "bmp", strL "ico", strL "pdf", strL "doc", strL "docx", strL "xls",
   strL "xlsx", strL "ppt", strL "pptx", strL "zip", strL "rar", strL "tar",
   strL "gz", strL "7z", strL "mp3", strL "mp4", strL "avi", strL "mov",
   strL "wmv", strL "css", strL "js", strL "json", strL "xml",
   strL "scaled", strL "circle", strL "thumbnail", strL "icon"]

/-- Whether `cleaned.split('@')[1]` ends (after splitting on `.`) in a forbidden
extension.  Note `split('@')[1]` is the text between the first and second
`@` of the candidate. -/
def forbiddenLast (t : List Char) : Bool :=
  let domain := (splitOnChar '@' t).getD 1 []
  let parts := splitOnChar '.' domain
  forbiddenExts.contains (lowerList (parts.getLastD []))

/-- The body of the `_normalize_emails` loop for one raw candidate:
`some cleaned` if the candidate survives, `none` if it is skipped. -/
def normalizeOne (email : List Char) : Option (List Char) :=
  let cleaned0 := trimBoth isSpacePy (lowerList email)
  let c1 := subAll atPat '@' cleaned0
  let c2 := subAll dotPat '.' c1
  let c3 := trimBoth strip1Set c2
  let c4 := trimRight rstripSet c3
  if c4.length < 6 then none
  else if exclAny c4 then none
  else if c4.contains '@' && forbiddenLast c4 then none
  else some c4

/-- Stage `_normalize_emails`: normalize every candidate, dropping rejects,
with set semantics. -/
def normalizeSet (cands : List (List Char)) : List (List Char) :=
  (cands.filterMap normalizeOne).dedup

/-! ## `_validate_syntax_batch` (the `email_validator` dependency) -/

structure ValidatedEmail where
  original : List Char
  normalized : List Char
  localPart : List Char
  domain : List Char
deriving DecidableEq, Repr

/-- RFC 5321/5322 atext characters besides letters and digits, by ASCII
code: `! # $ % & ' * + - / = ? ^ _ \x60 { | } ~`. -/
def isAtextExtra (c : Char) : Bool :=
  [33, 35, 36, 37, 38, 39, 42, 43, 45, 47, 61, 63,
   94, 95, 96, 123, 124, 125, 126].contains c.toNat

def isAtextChar (c : Char) : Bool := isAlnumChar c || isAtextExtra c

/-- A dot-atom local part: non-empty atext runs separated by single dots. -/
def localOk (l : List Char) : Bool :=
  decide (l ≠ []) && decide (l.length ≤ 64) &&
  l.all (fun c => isAtextChar c || c = '.') &&
  decide (l.head? ≠ some '.') && decide (l.getLast? ≠ some '.') &&
  !containsSub l (strL "..")

/-- One DNS label: non-empty, at most 63 chars, alphanumeric or hyphen,
no hyphen at either end. -/
def labelOk (lab : List Char) : Bool :=
  decide (lab ≠ []) && decide (lab.length ≤ 63) &&
  lab.all (fun c => isAlnumChar c || c = '-') &&
  decide (lab.head? ≠ some '-') && decide (lab.getLast? ≠ some '-')

def domainOk (d : List Char) : Bool :=
  let labs := splitOnChar '.' d
  decide (d.length ≤ 253) && decide (2 ≤ labs.length) && labs.all labelOk &&
  (labs.getLastD []).all isAlphaChar && decide (2 ≤ (labs.getLastD []).length)

/-- Modelled from the spec: the Syntax Validator (`validate_email` from the
third-party `email_validator` library, not part of `src/`) applies
"RFC-5321/5322-shaped structural validation (not deliverability)", and on
success emits "a structured record with local-part/domain split" and the
canonical normalized form (the domain lower-cased; input here is already
lower-case ASCII from the Normalizer). -/
def rfcValidate (e : List Char) : Option ValidatedEmail :=
  match splitOnChar '@' e with
  | [l, d] =>
    if localOk l && domainOk d then
      some ⟨e, l ++ '@' :: lowerList d, l, lowerList d⟩
    else none
  | _ => none

/-- Stage `_validate_syntax_batch`: keep the records that validate, silently
dropping the rest. -/
def validateSyntaxBatch (emails : List (List Char)) : List ValidatedEmail :=
  emails.filterMap rfcValidate

/-! ## `_check_mx_with_fallback` and `_validate_dns_batch`

The `dns.resolver` dependency is modelled as oracle functions from domain
to outcome.  An MX query either returns a non-empty record list (dnspython
raises `NoAnswer` rather than returning an empty answer), raises
`NXDOMAIN`, raises `NoAnswer`, or raises some other exception (timeout,
transient resolver failure); an A query either returns records or fails
for any reason (the bare `except: pass` catches everything). -/

inductive MxOutcome where
  | found (pref : Nat) (prefs : List Nat)
  | nxdomain
  | noAnswer
  | otherErr
deriving DecidableEq, Repr

inductive AOutcome where
  | found
  | failed
deriving DecidableEq, Repr

structure DelivInfo where
  has_mx : Bool
  has_a_record : Bool
  mx_priority : Nat
  mx_count : Nat
deriving DecidableEq, Repr

/-- Python `min(record.preference for record in mx_list)`. -/
def minPref (p : Nat) (ps : List Nat) : Nat := ps.foldl Nat.min p

/-- The uncached body of `_check_mx_with_fallback`. -/
def checkMxPure (mx : MxOutcome) (a : AOutcome) : DelivInfo :=
  match mx with
  | .found p ps => ⟨true, false, minPref p ps, ps.length + 1⟩
  | .nxdomain | .noAnswer =>
    match a with
    | .found => ⟨false, true, 999, 0⟩
    | .failed => ⟨false, false, 999, 0⟩
  | .otherErr => ⟨true, false, 999, 0⟩

abbrev MxCache := List (List Char × DelivInfo)

def lookupA (c : MxCache) (k : List Char) : Option DelivInfo :=
  match c with
  | [] => none
  | (k2, v) :: rest => if k2 = k then some v else lookupA rest k

/-- Method `_check_mx_with_fallback` with its cache (`self.mx_cache`, keyed by the
lower-cased domain, populated after every uncached lookup regardless of
outcome). -/
def checkMxCached (rmx : List Char → MxOutcome) (ra : List Char → AOutcome)
    (cache : MxCache) (d : List Char) : DelivInfo × MxCache :=
  match lookupA cache (lowerList d) with
  | some r => (r, cache)
  | none =>
    let r := checkMxPure (rmx d) (ra d)
    (r, (lowerList d, r) :: cache)

/-- The record-keeping rule of `_validate_dns_batch`:
`if mx_info['has_mx'] or mx_info['has_a_record']`. -/
def keepDns (r : DelivInfo) : Bool := r.has_mx || r.has_a_record

/-- Stage `_validate_dns_batch`, threading the cache through the batch.  (The
source resolves the domains on a thread pool and rejoins in completion
order; completion order is arbitrary there and final ordering is
re-established by `_final_filter`, so the model processes the batch in
list order.  The concurrency of the cache itself is analysed separately
below.) -/
def goDns (rmx : List Char → MxOutcome) (ra : List Char → AOutcome) :
    List ValidatedEmail → MxCache → List (ValidatedEmail × DelivInfo) × MxCache
  | [], c => ([], c)
  | v :: vs, c =>
    let rc := checkMxCached rmx ra c v.domain
    let rest := goDns rmx ra vs rc.2
    (if keepDns rc.1 then (v, rc.1) :: rest.1 else rest.1, rest.2)

def validateDnsBatch (rmx : List Char → MxOutcome) (ra : List Char → AOutcome)
    (emails : List ValidatedEmail) : List (ValidatedEmail × DelivInfo) :=
  (goDns rmx ra emails []).1

/-! ## `_score_emails` and `_score_to_confidence` -/

inductive Confidence where
  | high
  | medium
  | low
deriving DecidableEq, Repr

/-- Method `_score_to_confidence`. -/
def scoreToConfidence (s : Int) : Confidence :=
  if s ≥ 70 then .high else if s ≥ 40 then .medium else .low

/-- Bonus `+15` if strong MX setup: `has_mx and mx_priority < 20`. -/
def mxPrioBonus (d : DelivInfo) : Int :=
  if d.has_mx ∧ d.mx_priority < 20 then 15 else 0

/-- Bonus `+10` if multiple MX records: `mx_count >= 2`. -/
def mxCountBonus (d : DelivInfo) : Int :=
  if 2 ≤ d.mx_count then 10 else 0

/-- Bonus `+20` if the local part looks like `firstname.lastname`. -/
def dotLocalBonus (lp : List Char) : Int :=
  if lp.contains '.' ∧ lp.head? ≠ some '.' ∧ lp.getLast? ≠ some '.'
  then 20 else 0

/-- Bonus `+5` if the local part contains an underscore. -/
def underscoreBonus (lp : List Char) : Int :=
  if lp.contains '_' then 5 else 0

/-- Bonus `+10` for professional TLDs. -/
def tldBonus (domain : List Char) : Int :=
  if endsWithL domain (strL ".com") || endsWithL domain (strL ".law") ||
     endsWithL domain (strL ".legal") || endsWithL domain (strL ".org") ||
     endsWithL domain (strL ".net") || endsWithL domain (strL ".us") ||
     endsWithL domain (strL ".uk")
  then 10 else 0

def relevantKeywords : List (List Char) :=
  [strL "attorney", strL "lawyer", strL "partner", strL "counsel",
   strL "esq", strL "contact", strL "team", strL "staff", strL "about",
   strL "reach"]

/-- The 200-character window `context_lower[max(0, idx-200):min(len, idx+200)]`
around position `idx`. -/
def windowAt (ctxLower : List Char) (idx : Nat) : List Char :=
  sliceL ctxLower (idx - 200) (Nat.min ctxLower.length (idx + 200))

/-- Does the window around `idx` contain a relevance keyword? -/
def kwHitWindow (ctxLower : List Char) (idx : Nat) : Bool :=
  relevantKeywords.any fun kw => containsSub (windowAt ctxLower idx) kw

/-- Bonus `+15` if the email appears near relevant keywords; the window is taken
around `context_lower.find(email_lower)`, the first occurrence only. -/
def keywordBonus (emailLower ctxLower : List Char) : Int :=
  match indexOfSub ctxLower emailLower with
  | none => 0
  | some idx => if kwHitWindow ctxLower idx then 15 else 0

def genericLocals : List (List Char) :=
  [strL "info", strL "contact", strL "admin", strL "support", strL "sales",
   strL "hello", strL "help", strL "service", strL "office"]

/-- Penalty `-20` for generic/role-based local parts. -/
def genericPenalty (lp : List Char) : Int :=
  if genericLocals.any (fun g => startsWithL lp g) then -20 else 0

/-- Penalty `-30` for no-reply addresses. -/
def noreplyPenalty (lp : List Char) : Int :=
  if containsSub lp (strL "noreply") || containsSub lp (strL "no-reply") ||
     containsSub lp (strL "donotreply")
  then -30 else 0

/-- Penalty `-10` for a very long local part. -/
def longLocalPenalty (lp : List Char) : Int :=
  if 30 < lp.length then -10 else 0

/-- Penalty `-15` if more than half the local part is digits
(`num_digits > len(local) * 0.5`; both sides are exactly representable, so
the float comparison of the source equals `2 * num_digits > len(local)`). -/
def digitsPenalty (lp : List Char) : Int :=
  if lp.length < 2 * (lp.countP (fun c => isDigitChar c)) then -15 else 0

/-- Penalty `-10` if deliverability rests on an A record alone. -/
def aOnlyPenalty (d : DelivInfo) : Int :=
  if !d.has_mx && d.has_a_record then -10 else 0

structure ScoredEmail where
  email : ValidatedEmail
  dns : DelivInfo
  score : Int
  confidence : Confidence
deriving DecidableEq, Repr

/-- The raw (unclamped) score of one record: neutral 50 plus every signal. -/
def rawScore (v : ValidatedEmail) (d : DelivInfo) (ctxLower : List Char) : Int :=
  50 + mxPrioBonus d + mxCountBonus d + dotLocalBonus v.localPart +
  underscoreBonus v.localPart + tldBonus v.domain +
  keywordBonus (lowerList v.normalized) ctxLower +
  genericPenalty v.localPart + noreplyPenalty v.localPart +
  longLocalPenalty v.localPart + digitsPenalty v.localPart + aOnlyPenalty d

/-- Python `max(0, min(100, score))`. -/
def clampScore (s : Int) : Int := max 0 (min 100 s)

/-- Stage `_score_emails`. -/
def scoreEmails (es : List (ValidatedEmail × DelivInfo)) (context : List Char) :
    List ScoredEmail :=
  let ctxLower := lowerList context
  es.map fun vd =>
    let s := clampScore (rawScore vd.1 vd.2 ctxLower)
    ⟨vd.1, vd.2, s, scoreToConfidence s⟩

/-! ## `_final_filter` -/

/-- The keep test of `_final_filter`: drop `score < 20`, drop records with
no deliverability signal. -/
def keepFinal (e : ScoredEmail) : Bool :=
  if e.score < 20 then false
  else if !e.dns.has_mx && !e.dns.has_a_record then false
  else true

/-- Stable insertion (descending by score): an element is placed before the
first strictly-lower-scored element, after any earlier tie. -/
def insertDesc (x : ScoredEmail) : List ScoredEmail → List ScoredEmail
  | [] => [x]
  | y :: ys => if y.score ≤ x.score then x :: y :: ys else y :: insertDesc x ys

/-- Stable sort by score descending.  `sorted(key=..., reverse=True)` is the
unique stable descending sort, which insertion sort with ties kept in
input order computes. -/
def sortDesc : List ScoredEmail → List ScoredEmail
  | [] => []
  | x :: xs => insertDesc x (sortDesc xs)

/-- Stage `_final_filter`. -/
def finalFilter (es : List ScoredEmail) : List ScoredEmail :=
  sortDesc (es.filter keepFinal)

/-! ## `extract_all_emails`: the full pipeline -/

def extractAllEmails (rmx : List Char → MxOutcome) (ra : List Char → AOutcome)
    (markdown : List Char) : List ScoredEmail :=
  let candidates := extractCandidates markdown
  let normalized := normalizeSet candidates
  let valid := validateSyntaxBatch normalized
  let dnsValid := validateDnsBatch rmx ra valid
  let scored := scoreEmails dnsValid markdown
  finalFilter scored

/-! ## Concurrency model of the Deliverability Checker (for C2)

`_validate_dns_batch` submits one future per email (not per distinct
domain) to a 20-thread pool; each future runs `_check_mx_with_fallback`,
which performs three steps on the shared, unsynchronized `self.mx_cache`
dict: (1) read the cache, (2) if missed, call `dns.resolver.resolve`,
(3) write the result into the cache.  Under the GIL each dict operation is
atomic, but the read-resolve-write sequence is not, so steps of different
workers may interleave arbitrarily.  A worker is a program counter over
these steps plus its domain; a schedule picks which worker steps next. -/

inductive WPc where
  | checkC
  | resolveC
  | writeC
  | doneC
deriving DecidableEq, Repr

structure WorkerSt where
  dom : List Char
  pc : WPc
deriving DecidableEq, Repr

structure CkState where
  cache : MxCache
  counts : List (List Char × Nat)
deriving DecidableEq, Repr

/-- The number of recorded resolve operations for key `k`. -/
def getCountN : List (List Char × Nat) → List Char → Nat
  | [], _ => 0
  | (k2, n) :: rest, k => if k2 = k then n else getCountN rest k

def getCount (σ : CkState) (k : List Char) : Nat := getCountN σ.counts k

def bumpCount (k : List Char) : List (List Char × Nat) → List (List Char × Nat)
  | [] => [(k, 1)]
  | (k2, n) :: rest =>
    if k2 = k then (k2, n + 1) :: rest else (k2, n) :: bumpCount k rest

/-- One atomic step of worker `w` (cache read / DNS resolve / cache write). -/
def stepW (rmx : List Char → MxOutcome) (ra : List Char → AOutcome)
    (σ : CkState) (w : WorkerSt) : CkState × WorkerSt :=
  match w.pc with
  | .checkC =>
    match lookupA σ.cache (lowerList w.dom) with
    | some _ => (σ, ⟨w.dom, .doneC⟩)
    | none => (σ, ⟨w.dom, .resolveC⟩)
  | .resolveC =>
    ({σ with counts := bumpCount (lowerList w.dom) σ.counts}, ⟨w.dom, .writeC⟩)
  | .writeC =>
    ({σ with cache := (lowerList w.dom, checkMxPure (rmx w.dom) (ra w.dom)) :: σ.cache},
     ⟨w.dom, .doneC⟩)
  | .doneC => (σ, w)

/-- Run a schedule: each entry names the worker that takes the next step. -/
def runSched (rmx : List Char → MxOutcome) (ra : List Char → AOutcome)
    (ws : List WorkerSt) (σ : CkState) : List Nat → CkState × List WorkerSt
  | [] => (σ, ws)
  | i :: rest =>
    match ws.get? i with
    | some w =>
      let sw := stepW rmx ra σ w
      runSched rmx ra (ws.set i sw.2) sw.1 rest
    | none => runSched rmx ra ws σ rest

/-- Sequential (non-interleaved) execution: each domain's
check-resolve-write runs to completion before the next domain starts.
This is the uncontended behaviour of `_check_mx_with_fallback`. -/
def processSeq (rmx : List Char → MxOutcome) (ra : List Char → AOutcome) :
    List (List Char) → CkState → CkState
  | [], σ => σ
  | d :: ds, σ =>
    match lookupA σ.cache (lowerList d) with
    | some _ => processSeq rmx ra ds σ
    | none =>
      processSeq rmx ra ds
        ⟨(lowerList d, checkMxPure (rmx d) (ra d)) :: σ.cache,
         bumpCount (lowerList d) σ.counts⟩

/-! ## Shape of a well-formed `user@domain.tld` occurrence (for C1)

`emailOfParts L D T` is `L@D.T`; `p1shape` says the three parts fit
pattern 1's character classes and length bounds, and the delimiter
predicates say the surrounding text cannot extend or absorb a pattern-1
match across the occurrence (no adjacent character from the classes a
match can contain). -/

def emailOfParts (L D T : List Char) : List Char := L ++ '@' :: (D ++ '.' :: T)

/-- The characters that can occur inside a pattern-1 match. -/
def isP1Extender (c : Char) : Bool := isLocalChar c || c = '@'

/-- The list starts with an alphanumeric character. -/
def headAlnum : List Char → Bool
  | [] => false
  | c :: _ => isAlnumChar c

def p1shape (L D T : List Char) : Bool :=
  headAlnum L && L.all isLocalChar && decide (L.length ≤ 64) &&
  headAlnum D && D.all isDomainChar &&
  T.all isAlphaChar && decide (2 ≤ T.length) && decide (T.length ≤ 63) &&
  decide (D.length + T.length ≤ 253)

/-- The text before the occurrence ends in a non-absorbable character (or
is empty). -/
def delimBefore (pre : List Char) : Bool :=
  match pre.getLast? with
  | none => true
  | some c => !isP1Extender c

/-- The text after the occurrence starts with a non-absorbable character
(or is empty). -/
def delimAfter (post : List Char) : Bool :=
  match post.head? with
  | none => true
  | some c => !isP1Extender c

/-- Every end position offered by `m` at `i` lies at or after `i`, and all
characters strictly consumed satisfy `S`. -/
def ConsumesIn (m : Matcher) (S : Char → Bool) : Prop :=
  ∀ t i j, j ∈ m t i → i ≤ j ∧
    ∀ k, i ≤ k → k < j → ∃ c, t.get? k = some c ∧ S c = true

/-- As `ConsumesIn`, but the matcher always consumes at least one character. -/
def StrictIn (m : Matcher) (S : Char → Bool) : Prop :=
  ∀ t i j, j ∈ m t i → i < j ∧
    ∀ k, i ≤ k → k < j → ∃ c, t.get? k = some c ∧ S c = true

/-- The caches threaded through `goDns` only hold values the oracles would
produce for their key. -/
def cacheOk (rmx : List Char → MxOutcome) (ra : List Char → AOutcome)
    (cache : MxCache) : Prop :=
  ∀ k r, lookupA cache k = some r → r = checkMxPure (rmx k) (ra k)

/-! # Theorems -/

/-! ## Generic facts about the character classes -/

lemma alnum_isLocal {c : Char} (h : isAlnumChar c = true) : isLocalChar c = true := by
  simp [isLocalChar, h]

lemma alpha_isAlnum {c : Char} (h : isAlphaChar c = true) : isAlnumChar c = true := by
  simp [isAlnumChar, h]

lemma alnum_isDomain {c : Char} (h : isAlnumChar c = true) : isDomainChar c = true := by
  simp [isDomainChar, h]

lemma local_isExtender {c : Char} (h : isLocalChar c = true) : isP1Extender c = true := by
  simp [isP1Extender, h]

lemma domain_isLocal {c : Char} (h : isDomainChar c = true) : isLocalChar c = true := by
  simp only [isDomainChar, isLocalChar, Bool.or_eq_true, decide_eq_true_eq] at h ⊢
  tauto

lemma word_isLocal {c : Char} (h : isWordChar c = true) : isLocalChar c = true := by
  simp only [isWordChar, isLocalChar, Bool.or_eq_true, decide_eq_true_eq] at h ⊢
  tauto

lemma alpha_isWord {c : Char} (h : isAlphaChar c = true) : isWordChar c = true := by
  simp only [isWordChar, isAlnumChar, Bool.or_eq_true] at h ⊢
  tauto

lemma alpha_ne_dot {c : Char} (h : isAlphaChar c = true) : c ≠ '.' := by
  intro hc
  subst hc
  exact absurd h (by decide)

/-! ## `runLen` and `descList` -/

lemma runLen_succ_none (p : Char → Bool) (t : List Char) (i cap : Nat)
    (h : t.get? i = none) : runLen p t i (cap + 1) = 0 := by
  conv_lhs => unfold runLen
  rw [h]

lemma runLen_succ_neg (p : Char → Bool) (t : List Char) (i cap : Nat) (c : Char)
    (hc : t.get? i = some c) (hp : p c = false) : runLen p t i (cap + 1) = 0 := by
  conv_lhs => unfold runLen
  rw [hc]
  simp [hp]

lemma runLen_succ_pos (p : Char → Bool) (t : List Char) (i cap : Nat) (c : Char)
    (hc : t.get? i = some c) (hp : p c = true) :
    runLen p t i (cap + 1) = runLen p t (i + 1) cap + 1 := by
  conv_lhs => unfold runLen
  rw [hc]
  simp [hp]

lemma runLen_le (p : Char → Bool) (t : List Char) :
    ∀ cap i, runLen p t i cap ≤ cap := by
  intro cap
  induction cap with
  | zero => intro i; simp [runLen]
  | succ m ih =>
    intro i
    cases ht : t.get? i with
    | none => rw [runLen_succ_none p t i m ht]; omega
    | some c =>
      by_cases hp : p c = true
      · rw [runLen_succ_pos p t i m c ht hp]
        have := ih (i + 1)
        omega
      · rw [runLen_succ_neg p t i m c ht (by simpa using hp)]
        omega

lemma runLen_eq (p : Char → Bool) (t : List Char) :
    ∀ n i cap, (∀ k, k < n → ∃ c, t.get? (i + k) = some c ∧ p c = true) →
    (∀ c, t.get? (i + n) = some c → p c = false) →
    n ≤ cap → runLen p t i cap = n := by
  intro n
  induction n with
  | zero =>
    intro i cap _ hstop _
    cases cap with
    | zero => rfl
    | succ m =>
      cases ht : t.get? i with
      | none => exact runLen_succ_none p t i m ht
      | some c => exact runLen_succ_neg p t i m c ht (hstop c (by simpa using ht))
  | succ m ih =>
    intro i cap hrun hstop hcap
    obtain ⟨cap2, rfl⟩ : ∃ c2, cap = c2 + 1 := ⟨cap - 1, by omega⟩
    obtain ⟨c, hc, hpc⟩ := hrun 0 (by omega)
    simp only [Nat.add_zero] at hc
    rw [runLen_succ_pos p t i cap2 c hc hpc]
    have heq : runLen p t (i + 1) cap2 = m := by
      apply ih
      · intro k hk
        obtain ⟨d, hd, hpd⟩ := hrun (k + 1) (by omega)
        exact ⟨d, by rw [show i + 1 + k = i + (k + 1) by omega]; exact hd, hpd⟩
      · intro d hd
        apply hstop
        rw [show i + (m + 1) = i + 1 + m by omega]
        exact hd
      · omega
    omega

lemma runLen_chars (p : Char → Bool) (t : List Char) :
    ∀ cap i k, k < runLen p t i cap →
    ∃ c, t.get? (i + k) = some c ∧ p c = true := by
  intro cap
  induction cap with
  | zero => intro i k h; simp [runLen] at h
  | succ m ih =>
    intro i k h
    cases ht : t.get? i with
    | none => rw [runLen_succ_none p t i m ht] at h; omega
    | some c =>
      by_cases hp : p c = true
      · rw [runLen_succ_pos p t i m c ht hp] at h
        cases k with
        | zero => exact ⟨c, by simpa using ht, hp⟩
        | succ k2 =>
          obtain ⟨d, hd, hpd⟩ := ih (i + 1) k2 (by omega)
          exact ⟨d, by rw [show i + (k2 + 1) = i + 1 + k2 by omega]; exact hd, hpd⟩
      · rw [runLen_succ_neg p t i m c ht (by simpa using hp)] at h
        omega

lemma descList_append (b : Nat) :
    ∀ a top, descList top (a + b) = descList top a ++ descList (top - a) b := by
  intro a
  induction a with
  | zero => intro top; simp [descList]
  | succ m ih =>
    intro top
    have h2 : m + 1 + b = (m + b) + 1 := by omega
    rw [h2]
    simp only [descList, List.cons_append]
    rw [ih (top - 1), Nat.sub_sub, Nat.add_comm 1 m]

lemma mem_descList : ∀ c top j, j ∈ descList top c → j ≤ top ∧ top < j + c := by
  intro c
  induction c with
  | zero => intro top j h; simp [descList] at h
  | succ m ih =>
    intro top j h
    simp only [descList, List.mem_cons] at h
    rcases h with rfl | h
    · omega
    · have := ih (top - 1) j h
      omega

lemma mem_descList_cons (top c : Nat) :
    descList top (c + 1) = top :: descList (top - 1) c := rfl

/-! ## Evaluation lemmas for the combinators -/

lemma mBound_pos (t : List Char) (i : Nat)
    (h : (if i = 0 then false else wordAt t (i - 1)) ≠ wordAt t i) :
    mBound t i = [i] := by
  unfold mBound
  rw [if_neg h]

lemma mClass_pos (p : Char → Bool) (t : List Char) (i : Nat) (c : Char)
    (hc : t.get? i = some c) (hp : p c = true) : mClass p t i = [i + 1] := by
  simp only [mClass, hc, hp, if_true]

lemma mChar_pos (c : Char) (t : List Char) (i : Nat)
    (h : t.get? i = some c) : mChar c t i = [i + 1] := by
  simp only [mChar, h, if_pos]

lemma mChar_neg (c : Char) (t : List Char) (i : Nat)
    (h : ¬t.get? i = some c) : mChar c t i = [] := by
  simp only [mChar, h, if_false]

lemma mClassRep_eval (p : Char → Bool) (lo hi : Nat) (t : List Char)
    (i n : Nat) (hrun : runLen p t i hi = n) (hlo : lo ≤ n) :
    mClassRep p lo hi t i = descList (i + n) (n + 1 - lo) := by
  show (if lo ≤ runLen p t i hi then
      descList (i + runLen p t i hi) (runLen p t i hi + 1 - lo) else []) = _
  rw [hrun, if_pos hlo]

lemma flatMap_nil_of {α β : Type} (l : List α) (f : α → List β)
    (h : ∀ x ∈ l, f x = []) : l.flatMap f = [] := by
  induction l with
  | nil => rfl
  | cons a l ih =>
    rw [List.flatMap_cons, h a (by simp), List.nil_append]
    exact ih (fun x hx => h x (by simp [hx]))

/-! ## What a match can consume -/

lemma strict_weaken {m : Matcher} {S : Char → Bool} (h : StrictIn m S) :
    ConsumesIn m S := fun t i j hj =>
  ⟨Nat.le_of_lt (h t i j hj).1, (h t i j hj).2⟩

lemma consumes_mBound (S : Char → Bool) : ConsumesIn mBound S := by
  intro t i j hj
  unfold mBound at hj
  by_cases hc : (if i = 0 then false else wordAt t (i - 1)) = wordAt t i
  · rw [if_pos hc] at hj
    exact absurd hj (List.not_mem_nil _)
  · rw [if_neg hc] at hj
    simp only [List.mem_singleton] at hj
    subst hj
    exact ⟨Nat.le_refl _, fun k hk1 hk2 => absurd hk2 (by omega)⟩

lemma strict_mClass (p : Char → Bool) (S : Char → Bool)
    (h : ∀ c, p c = true → S c = true) : StrictIn (mClass p) S := by
  intro t i j hj
  cases ht : t.get? i with
  | none =>
    simp only [mClass, ht] at hj
    exact absurd hj (List.not_mem_nil _)
  | some c =>
    simp only [mClass, ht] at hj
    by_cases hp : p c = true
    · simp only [hp, if_true, List.mem_singleton] at hj
      subst hj
      refine ⟨by omega, fun k hk1 hk2 => ?_⟩
      have hk : k = i := by omega
      subst hk
      exact ⟨c, ht, h c hp⟩
    · simp [hp] at hj

lemma strict_mChar (c : Char) (S : Char → Bool) (h : S c = true) :
    StrictIn (mChar c) S := by
  intro t i j hj
  unfold mChar at hj
  split at hj
  · next ht =>
    simp at hj
    subst hj
    refine ⟨by omega, fun k hk1 hk2 => ?_⟩
    have hk : k = i := by omega
    subst hk
    exact ⟨c, ht, h⟩
  · simp at hj

lemma consumes_mClassRep (p : Char → Bool) (lo hi : Nat) (S : Char → Bool)
    (h : ∀ c, p c = true → S c = true) : ConsumesIn (mClassRep p lo hi) S := by
  intro t i j hj
  have hj2 : j ∈ (if lo ≤ runLen p t i hi then
      descList (i + runLen p t i hi) (runLen p t i hi + 1 - lo) else []) := hj
  split at hj2
  · next hlo =>
    obtain ⟨h1, h2⟩ := mem_descList _ _ _ hj2
    refine ⟨by omega, fun k hk1 hk2 => ?_⟩
    obtain ⟨c, hc, hpc⟩ :=
      runLen_chars p t hi i (k - i) (by omega)
    rw [show i + (k - i) = k by omega] at hc
    exact ⟨c, hc, h c hpc⟩
  · simp at hj2

lemma consumes_mSeq {a b : Matcher} {S : Char → Bool}
    (ha : ConsumesIn a S) (hb : ConsumesIn b S) : ConsumesIn (mSeq a b) S := by
  intro t i j hj
  simp only [mSeq] at hj
  rw [List.mem_flatMap] at hj
  obtain ⟨x, hx, hjx⟩ := hj
  obtain ⟨hix, hc1⟩ := ha t i x hx
  obtain ⟨hxj, hc2⟩ := hb t x j hjx
  refine ⟨by omega, fun k hk1 hk2 => ?_⟩
  by_cases hk : k < x
  · exact hc1 k hk1 hk
  · exact hc2 k (by omega) hk2

lemma strict_mSeq_left {a b : Matcher} {S : Char → Bool}
    (ha : StrictIn a S) (hb : ConsumesIn b S) : StrictIn (mSeq a b) S := by
  intro t i j hj
  simp only [mSeq] at hj
  rw [List.mem_flatMap] at hj
  obtain ⟨x, hx, hjx⟩ := hj
  obtain ⟨hix, hc1⟩ := ha t i x hx
  obtain ⟨hxj, hc2⟩ := hb t x j hjx
  refine ⟨by omega, fun k hk1 hk2 => ?_⟩
  by_cases hk : k < x
  · exact hc1 k hk1 hk
  · exact hc2 k (by omega) hk2

lemma strict_mSeq_right {a b : Matcher} {S : Char → Bool}
    (ha : ConsumesIn a S) (hb : StrictIn b S) : StrictIn (mSeq a b) S := by
  intro t i j hj
  simp only [mSeq] at hj
  rw [List.mem_flatMap] at hj
  obtain ⟨x, hx, hjx⟩ := hj
  obtain ⟨hix, hc1⟩ := ha t i x hx
  obtain ⟨hxj, hc2⟩ := hb t x j hjx
  refine ⟨by omega, fun k hk1 hk2 => ?_⟩
  by_cases hk : k < x
  · exact hc1 k hk1 hk
  · exact hc2 k (by omega) hk2

/-- A pattern-1 match consumes only local-part characters and `@`, and is
non-empty. -/
lemma matcher1_strict : StrictIn matcher1 isP1Extender := by
  unfold matcher1
  refine strict_mSeq_right (consumes_mBound _) ?_
  refine strict_mSeq_left
    (strict_mClass _ _ (fun c hc => local_isExtender (alnum_isLocal hc))) ?_
  refine consumes_mSeq (consumes_mClassRep _ _ _ _ (fun c hc => local_isExtender hc)) ?_
  refine consumes_mSeq (strict_weaken (strict_mChar _ _ (by decide))) ?_
  refine consumes_mSeq
    (strict_weaken (strict_mClass _ _ (fun c hc => local_isExtender (alnum_isLocal hc)))) ?_
  refine consumes_mSeq
    (consumes_mClassRep _ _ _ _ (fun c hc => local_isExtender (domain_isLocal hc))) ?_
  refine consumes_mSeq (strict_weaken (strict_mChar _ _ (by decide))) ?_
  refine consumes_mSeq
    (consumes_mClassRep _ _ _ _
      (fun c hc => local_isExtender (alnum_isLocal (alpha_isAlnum hc)))) ?_
  exact consumes_mBound _

/-! ## Position lemmas for a properly embedded occurrence -/

lemma getLast?_eq_get? (l : List Char) : l.getLast? = l.get? (l.length - 1) := by
  induction l with
  | nil => rfl
  | cons a l ih =>
    cases l with
    | nil => rfl
    | cons b m =>
      rw [List.getLast?_cons_cons, ih]
      simp [List.get?]

lemma head?_eq_get? (l : List Char) : l.head? = l.get? 0 := by
  cases l <;> rfl

lemma emailOfParts_length (L D T : List Char) :
    (emailOfParts L D T).length = L.length + D.length + T.length + 2 := by
  simp [emailOfParts]
  omega

lemma tGet_pre (pre mid post : List Char) (k : Nat) (hk : k < pre.length) :
    (pre ++ (mid ++ post)).get? k = pre.get? k :=
  List.get?_append hk

lemma tGet_mid (pre mid post : List Char) (k : Nat) (hk : k < mid.length) :
    (pre ++ (mid ++ post)).get? (pre.length + k) = mid.get? k := by
  rw [List.get?_append_right (by omega), Nat.add_sub_cancel_left]
  exact List.get?_append hk

lemma tGet_post (pre mid post : List Char) (k : Nat) :
    (pre ++ (mid ++ post)).get? (pre.length + mid.length + k) = post.get? k := by
  rw [List.get?_append_right (by omega), List.get?_append_right (by omega)]
  congr 1
  omega

lemma emailGet_L (L D T : List Char) (k : Nat) (hk : k < L.length) :
    (emailOfParts L D T).get? k = L.get? k :=
  List.get?_append hk

lemma emailGet_at (L D T : List Char) :
    (emailOfParts L D T).get? L.length = some '@' := by
  unfold emailOfParts
  rw [List.get?_append_right (by omega), Nat.sub_self]
  rfl

lemma emailGet_D (L D T : List Char) (k : Nat) (hk : k < D.length) :
    (emailOfParts L D T).get? (L.length + 1 + k) = D.get? k := by
  unfold emailOfParts
  rw [List.get?_append_right (by omega)]
  rw [show L.length + 1 + k - L.length = k + 1 by omega]
  rw [List.get?_cons_succ]
  exact List.get?_append hk

lemma emailGet_dot (L D T : List Char) :
    (emailOfParts L D T).get? (L.length + 1 + D.length) = some '.' := by
  unfold emailOfParts
  rw [List.get?_append_right (by omega)]
  rw [show L.length + 1 + D.length - L.length = D.length + 1 by omega]
  rw [List.get?_cons_succ]
  rw [List.get?_append_right (by omega), Nat.sub_self]
  rfl

lemma emailGet_T (L D T : List Char) (k : Nat) (hk : k < T.length) :
    (emailOfParts L D T).get? (L.length + 2 + D.length + k) = T.get? k := by
  unfold emailOfParts
  rw [List.get?_append_right (by omega)]
  rw [show L.length + 2 + D.length + k - L.length = D.length + k + 2 by omega]
  rw [List.get?_cons_succ]
  rw [List.get?_append_right (by omega)]
  rw [show D.length + k + 1 - D.length = k + 1 by omega]
  rw [List.get?_cons_succ]

/-- Extract `some` membership from an index bound. -/
lemma get?_lt (l : List Char) (k : Nat) (hk : k < l.length) :
    ∃ c, l.get? k = some c ∧ c ∈ l := by
  cases hg : l.get? k with
  | none => rw [List.get?_eq_none] at hg; omega
  | some c => exact ⟨c, rfl, List.get?_mem hg⟩

/-! ## Head-composition lemmas for `mSeq` -/

lemma mSeq_nil_left (a b : Matcher) (t : List Char) (j : Nat)
    (h : a t j = []) : mSeq a b t j = [] := by
  simp only [mSeq, h, List.flatMap_nil]

lemma mSeq_head (a b : Matcher) (t : List Char) (i x final : Nat)
    (ja jb : List Nat) (ha : a t i = x :: ja) (hb : b t x = final :: jb) :
    ∃ junk, mSeq a b t i = final :: junk := by
  refine ⟨jb ++ ja.flatMap (b t), ?_⟩
  simp only [mSeq, ha, List.flatMap_cons, hb, List.cons_append]

lemma mSeq_head_skip (a b : Matcher) (t : List Char) (i x final : Nat)
    (fails ja jb : List Nat)
    (ha : a t i = fails ++ x :: ja) (hfail : ∀ j ∈ fails, b t j = [])
    (hb : b t x = final :: jb) :
    ∃ junk, mSeq a b t i = final :: junk := by
  refine ⟨jb ++ ja.flatMap (b t), ?_⟩
  simp only [mSeq, ha, List.flatMap_append, flatMap_nil_of fails _ hfail,
    List.nil_append, List.flatMap_cons, hb, List.cons_append]

lemma extender_false_domain {c : Char} (h : isP1Extender c = false) :
    isDomainChar c = false := by
  cases hb : isDomainChar c with
  | false => rfl
  | true => rw [local_isExtender (domain_isLocal hb)] at h; cases h

lemma extender_false_word {c : Char} (h : isP1Extender c = false) :
    isWordChar c = false := by
  cases hb : isWordChar c with
  | false => rfl
  | true => rw [local_isExtender (word_isLocal hb)] at h; cases h

lemma extender_false_alpha {c : Char} (h : isP1Extender c = false) :
    isAlphaChar c = false := by
  cases hb : isAlphaChar c with
  | false => rfl
  | true =>
    rw [local_isExtender (alnum_isLocal (alpha_isAlnum hb))] at h
    cases h

lemma extender_false_local {c : Char} (h : isP1Extender c = false) :
    isLocalChar c = false := by
  cases hb : isLocalChar c with
  | false => rfl
  | true => rw [local_isExtender hb] at h; cases h

/-- At the start of a properly delimited, well-shaped occurrence, pattern 1
matches and its first (preferred) end position is exactly the end of the
occurrence: the greedy local run stops at `@`, the greedy domain run
overshoots to the delimiter and backtracks to the final dot, and the TLD
run ends on the word boundary at the delimiter. -/
lemma matcher1_at_start (pre L D T post : List Char)
    (hLhead : ∃ c, L.head? = some c ∧ isAlnumChar c = true)
    (hLall : ∀ c ∈ L, isLocalChar c = true)
    (hLlen : L.length ≤ 64)
    (hDhead : ∃ c, D.head? = some c ∧ isAlnumChar c = true)
    (hDall : ∀ c ∈ D, isDomainChar c = true)
    (hTall : ∀ c ∈ T, isAlphaChar c = true)
    (hTlen2 : 2 ≤ T.length) (hTlen63 : T.length ≤ 63)
    (hDT : D.length + T.length ≤ 253)
    (hpre : delimBefore pre = true)
    (hpost : delimAfter post = true) :
    ∃ junk, matcher1 (pre ++ (emailOfParts L D T ++ post)) pre.length
      = (pre.length + (emailOfParts L D T).length) :: junk := by
  set t := pre ++ (emailOfParts L D T ++ post) with ht_def
  set s := pre.length with hs_def
  have heLen : (emailOfParts L D T).length = L.length + D.length + T.length + 2 :=
    emailOfParts_length L D T
  obtain ⟨c0, hc0h, hc0⟩ := hLhead
  have hL1 : 1 ≤ L.length := by
    cases L
    · simp at hc0h
    · simp
  have hL0 : L.get? 0 = some c0 := by rw [← head?_eq_get?]; exact hc0h
  obtain ⟨d0, hd0h, hd0⟩ := hDhead
  have hD1 : 1 ≤ D.length := by
    cases D
    · simp at hd0h
    · simp
  have hD0 : D.get? 0 = some d0 := by rw [← head?_eq_get?]; exact hd0h
  have hpost2 : ∀ c, post.get? 0 = some c → isP1Extender c = false := by
    intro c hc
    unfold delimAfter at hpost
    rw [head?_eq_get?, hc] at hpost
    simpa using hpost
  -- characters of the occurrence, as positions in t
  have htS : t.get? s = some c0 := by
    have h0 := tGet_mid pre (emailOfParts L D T) post 0 (by omega)
    rw [Nat.add_zero] at h0
    rw [h0, emailGet_L L D T 0 (by omega)]
    exact hL0
  have htL : ∀ k, k < L.length →
      ∃ c, t.get? (s + k) = some c ∧ isLocalChar c = true := by
    intro k hk
    obtain ⟨c, hc, hmem⟩ := get?_lt L k hk
    refine ⟨c, ?_, hLall c hmem⟩
    rw [tGet_mid pre _ post k (by omega), emailGet_L L D T k hk]
    exact hc
  have htAt : t.get? (s + L.length) = some '@' := by
    rw [tGet_mid pre _ post L.length (by omega), emailGet_at]
  have htD0 : t.get? (s + (L.length + 1)) = some d0 := by
    have h0 := tGet_mid pre (emailOfParts L D T) post (L.length + 1) (by omega)
    rw [h0]
    have h1 := emailGet_D L D T 0 (by omega)
    rw [Nat.add_zero] at h1
    rw [h1]
    exact hD0
  have htD : ∀ k, k < D.length →
      ∃ c, t.get? (s + (L.length + 1 + k)) = some c ∧ isDomainChar c = true := by
    intro k hk
    obtain ⟨c, hc, hmem⟩ := get?_lt D k hk
    refine ⟨c, ?_, hDall c hmem⟩
    rw [tGet_mid pre _ post (L.length + 1 + k) (by omega), emailGet_D L D T k hk]
    exact hc
  have htDot : t.get? (s + (L.length + 1 + D.length)) = some '.' := by
    rw [tGet_mid pre _ post (L.length + 1 + D.length) (by omega), emailGet_dot]
  have htT : ∀ k, k < T.length →
      ∃ c, t.get? (s + (L.length + 2 + D.length + k)) = some c ∧ isAlphaChar c = true := by
    intro k hk
    obtain ⟨c, hc, hmem⟩ := get?_lt T k hk
    refine ⟨c, ?_, hTall c hmem⟩
    rw [tGet_mid pre _ post (L.length + 2 + D.length + k) (by omega),
      emailGet_T L D T k hk]
    exact hc
  have htAfter : t.get? (s + (emailOfParts L D T).length) = post.get? 0 := by
    have h0 := tGet_post pre (emailOfParts L D T) post 0
    rw [Nat.add_zero] at h0
    exact h0
  -- the three greedy runs
  have hrunL : runLen isLocalChar t (s + 1) 63 = L.length - 1 := by
    apply runLen_eq
    · intro k hk
      obtain ⟨c, hc, hl⟩ := htL (k + 1) (by omega)
      refine ⟨c, ?_, hl⟩
      rw [show s + 1 + k = s + (k + 1) by omega]
      exact hc
    · intro c hc
      rw [show s + 1 + (L.length - 1) = s + L.length by omega, htAt] at hc
      injection hc with h2
      rw [← h2]
      decide
    · omega
  have hrunD : runLen isDomainChar t (s + (L.length + 2)) 253
      = D.length + T.length := by
    apply runLen_eq
    · intro k hk
      by_cases hk1 : k < D.length - 1
      · obtain ⟨c, hc, hdc⟩ := htD (k + 1) (by omega)
        refine ⟨c, ?_, hdc⟩
        rw [show s + (L.length + 2) + k = s + (L.length + 1 + (k + 1)) by omega]
        exact hc
      · by_cases hk2 : k = D.length - 1
        · refine ⟨'.', ?_, by decide⟩
          rw [show s + (L.length + 2) + k = s + (L.length + 1 + D.length) by omega]
          exact htDot
        · obtain ⟨c, hc, hac⟩ := htT (k - D.length) (by omega)
          refine ⟨c, ?_, alnum_isDomain (alpha_isAlnum hac)⟩
          rw [show s + (L.length + 2) + k
              = s + (L.length + 2 + D.length + (k - D.length)) by omega]
          exact hc
    · intro c hc
      rw [show s + (L.length + 2) + (D.length + T.length)
          = s + (emailOfParts L D T).length by omega, htAfter] at hc
      exact extender_false_domain (hpost2 c hc)
    · omega
  have hrunT : runLen isAlphaChar t (s + (L.length + 2 + D.length)) 63
      = T.length := by
    apply runLen_eq
    · intro k hk
      obtain ⟨c, hc, hac⟩ := htT k hk
      refine ⟨c, ?_, hac⟩
      rw [show s + (L.length + 2 + D.length) + k
          = s + (L.length + 2 + D.length + k) by omega]
      exact hc
    · intro c hc
      rw [show s + (L.length + 2 + D.length) + T.length
          = s + (emailOfParts L D T).length by omega, htAfter] at hc
      exact extender_false_alpha (hpost2 c hc)
    · omega
  -- the two word boundaries
  have hb1 : mBound t s = [s] := by
    apply mBound_pos
    have hw : wordAt t s = true := by
      unfold wordAt
      rw [htS]
      simp [isWordChar, hc0]
    rw [hw]
    by_cases hzero : s = 0
    · rw [if_pos hzero]
      simp
    · rw [if_neg hzero]
      unfold delimBefore at hpre
      cases hgl : pre.getLast? with
      | none =>
        rw [getLast?_eq_get?, List.get?_eq_none] at hgl
        omega
      | some clast =>
        rw [hgl] at hpre
        have hcl : isP1Extender clast = false := by simpa using hpre
        have hwp : wordAt t (s - 1) = false := by
          unfold wordAt
          rw [tGet_pre pre _ post (s - 1) (by omega)]
          rw [getLast?_eq_get?] at hgl
          rw [hgl]
          exact extender_false_word hcl
        rw [hwp]
        simp
  have hbEnd : mBound t (s + (emailOfParts L D T).length)
      = [s + (emailOfParts L D T).length] := by
    apply mBound_pos
    have hprev : wordAt t (s + (emailOfParts L D T).length - 1) = true := by
      unfold wordAt
      obtain ⟨c, hc, hac⟩ := htT (T.length - 1) (by omega)
      rw [show s + (emailOfParts L D T).length - 1
          = s + (L.length + 2 + D.length + (T.length - 1)) by omega, hc]
      exact alpha_isWord hac
    have hcur : wordAt t (s + (emailOfParts L D T).length) = false := by
      unfold wordAt
      rw [htAfter]
      cases hp0 : post.get? 0 with
      | none => rfl
      | some c => exact extender_false_word (hpost2 c hp0)
    rw [hprev, hcur, if_neg (by omega)]
    simp
  -- single-character components
  have hC1 : mClass isAlnumChar t s = [s + 1] := mClass_pos _ t s c0 htS hc0
  have hAt : mChar '@' t (s + L.length) = [s + L.length + 1] :=
    mChar_pos '@' t _ htAt
  have hC2 : mClass isAlnumChar t (s + (L.length + 1)) = [s + (L.length + 1) + 1] :=
    mClass_pos _ t _ d0 htD0 hd0
  -- repetition components
  have hLrep : mClassRep isLocalChar 0 63 t (s + 1)
      = (s + L.length) :: descList (s + L.length - 1) (L.length - 1) := by
    rw [mClassRep_eval isLocalChar 0 63 t (s + 1) (L.length - 1) hrunL (by omega)]
    have harith : s + 1 + (L.length - 1) = s + L.length := by omega
    have hcnt : L.length - 1 + 1 - 0 = L.length := by omega
    rw [harith, hcnt]
    obtain ⟨m, hm⟩ : ∃ m, L.length = m + 1 := ⟨L.length - 1, by omega⟩
    rw [hm]
    rfl
  have hDrep : mClassRep isDomainChar 0 253 t (s + (L.length + 2))
      = descList (s + (L.length + 2) + (D.length + T.length)) (T.length + 1)
        ++ (s + (L.length + 2) + (D.length - 1))
          :: descList (s + (L.length + 2) + (D.length - 1) - 1) (D.length - 1) := by
    rw [mClassRep_eval isDomainChar 0 253 t (s + (L.length + 2))
      (D.length + T.length) hrunD (by omega)]
    rw [show D.length + T.length + 1 - 0 = (T.length + 1) + D.length by omega]
    rw [descList_append]
    congr 1
    rw [show s + (L.length + 2) + (D.length + T.length) - (T.length + 1)
        = s + (L.length + 2) + (D.length - 1) by omega]
    obtain ⟨m, hm⟩ : ∃ m, D.length = m + 1 := ⟨D.length - 1, by omega⟩
    rw [hm]
    rfl
  have hTrep : mClassRep isAlphaChar 2 63 t (s + (L.length + 2 + D.length))
      = (s + (emailOfParts L D T).length)
        :: descList (s + (emailOfParts L D T).length - 1) (T.length - 2) := by
    rw [mClassRep_eval isAlphaChar 2 63 t (s + (L.length + 2 + D.length))
      T.length hrunT (by omega)]
    have harith : s + (L.length + 2 + D.length) + T.length
        = s + (emailOfParts L D T).length := by omega
    rw [harith]
    obtain ⟨m, hm⟩ : ∃ m, T.length - 1 = m + 1 := ⟨T.length - 2, by omega⟩
    rw [show T.length + 1 - 2 = T.length - 1 by omega, hm]
    have : T.length - 2 = m := by omega
    rw [this]
    rfl
  -- now assemble bottom-up
  obtain ⟨j9, hj9⟩ : ∃ junk, mSeq (mClassRep isAlphaChar 2 63) mBound t
      (s + (L.length + 2 + D.length))
      = (s + (emailOfParts L D T).length) :: junk :=
    mSeq_head _ _ t _ _ _ _ _ hTrep hbEnd
  have hdot2 : t.get? (s + (L.length + 2) + (D.length - 1)) = some '.' := by
    rw [show s + (L.length + 2) + (D.length - 1)
        = s + (L.length + 1 + D.length) by omega]
    exact htDot
  have hdotC : mChar '.' t (s + (L.length + 2) + (D.length - 1))
      = [s + (L.length + 2 + D.length)] := by
    rw [mChar_pos '.' t _ hdot2]
    rw [show s + (L.length + 2) + (D.length - 1) + 1
        = s + (L.length + 2 + D.length) by omega]
  obtain ⟨j8, hj8⟩ : ∃ junk,
      mSeq (mChar '.') (mSeq (mClassRep isAlphaChar 2 63) mBound) t
        (s + (L.length + 2) + (D.length - 1))
      = (s + (emailOfParts L D T).length) :: junk :=
    mSeq_head _ _ t _ _ _ _ j9 hdotC hj9
  obtain ⟨j7, hj7⟩ : ∃ junk,
      mSeq (mClassRep isDomainChar 0 253)
        (mSeq (mChar '.') (mSeq (mClassRep isAlphaChar 2 63) mBound)) t
        (s + (L.length + 2))
      = (s + (emailOfParts L D T).length) :: junk := by
    apply mSeq_head_skip _ _ t _ (s + (L.length + 2) + (D.length - 1)) _
      (descList (s + (L.length + 2) + (D.length + T.length)) (T.length + 1))
      _ j8 hDrep _ hj8
    intro j hj
    apply mSeq_nil_left
    apply mChar_neg
    obtain ⟨hj1, hj2⟩ := mem_descList _ _ _ hj
    intro hcon
    by_cases hje : j = s + (L.length + 2) + (D.length + T.length)
    · rw [hje, show s + (L.length + 2) + (D.length + T.length)
          = s + (emailOfParts L D T).length by omega, htAfter] at hcon
      exact absurd (hpost2 '.' hcon) (by decide)
    · obtain ⟨c, hc, hac⟩ := htT (j - (s + (L.length + 2)) - D.length) (by omega)
      rw [show j = s + (L.length + 2 + D.length
          + (j - (s + (L.length + 2)) - D.length)) by omega, hc] at hcon
      injection hcon with h2
      exact absurd h2 (alpha_ne_dot hac)
  have hC2b : mClass isAlnumChar t (s + (L.length + 1))
      = [s + (L.length + 2)] := by
    rw [hC2]
    rw [show s + (L.length + 1) + 1 = s + (L.length + 2) by omega]
  obtain ⟨j6, hj6⟩ : ∃ junk,
      mSeq (mClass isAlnumChar)
        (mSeq (mClassRep isDomainChar 0 253)
          (mSeq (mChar '.') (mSeq (mClassRep isAlphaChar 2 63) mBound))) t
        (s + (L.length + 1))
      = (s + (emailOfParts L D T).length) :: junk :=
    mSeq_head _ _ t _ _ _ _ j7 hC2b hj7
  have hAtB : mChar '@' t (s + L.length) = [s + (L.length + 1)] := by
    rw [hAt]
    rw [show s + L.length + 1 = s + (L.length + 1) by omega]
  obtain ⟨j5, hj5⟩ : ∃ junk,
      mSeq (mChar '@')
        (mSeq (mClass isAlnumChar)
          (mSeq (mClassRep isDomainChar 0 253)
            (mSeq (mChar '.') (mSeq (mClassRep isAlphaChar 2 63) mBound)))) t
        (s + L.length)
      = (s + (emailOfParts L D T).length) :: junk :=
    mSeq_head _ _ t _ _ _ _ j6 hAtB hj6
  obtain ⟨j4, hj4⟩ : ∃ junk,
      mSeq (mClassRep isLocalChar 0 63)
        (mSeq (mChar '@')
          (mSeq (mClass isAlnumChar)
            (mSeq (mClassRep isDomainChar 0 253)
              (mSeq (mChar '.') (mSeq (mClassRep isAlphaChar 2 63) mBound))))) t
        (s + 1)
      = (s + (emailOfParts L D T).length) :: junk :=
    mSeq_head _ _ t _ (s + L.length) _ _ j5 hLrep hj5
  obtain ⟨j3, hj3⟩ : ∃ junk,
      mSeq (mClass isAlnumChar)
        (mSeq (mClassRep isLocalChar 0 63)
          (mSeq (mChar '@')
            (mSeq (mClass isAlnumChar)
              (mSeq (mClassRep isDomainChar 0 253)
                (mSeq (mChar '.') (mSeq (mClassRep isAlphaChar 2 63) mBound)))))) t s
      = (s + (emailOfParts L D T).length) :: junk :=
    mSeq_head _ _ t _ (s + 1) _ _ j4 hC1 hj4
  exact mSeq_head _ _ t _ s _ _ j3 hb1 hj3

lemma headAlnum_ex {l : List Char} (h : headAlnum l = true) :
    ∃ c, l.head? = some c ∧ isAlnumChar c = true := by
  cases l with
  | nil => simp [headAlnum] at h
  | cons c cs => exact ⟨c, rfl, h⟩

lemma alnum_not_space {c : Char} (h : isAlnumChar c = true) :
    isSpacePy c = false := by
  cases hs : isSpacePy c with
  | false => rfl
  | true =>
    simp only [isSpacePy, Bool.or_eq_true, decide_eq_true_eq] at hs
    rcases hs with ((((h1 | h1) | h1) | h1) | h1) | h1
    · subst h1; exact absurd h (by decide)
    · subst h1; exact absurd h (by decide)
    · subst h1; exact absurd h (by decide)
    · subst h1; exact absurd h (by decide)
    · simp only [isAlnumChar, isAlphaChar, isLowerChar, isUpperChar,
        isDigitChar, Bool.or_eq_true, decide_eq_true_eq] at h
      omega
    · simp only [isAlnumChar, isAlphaChar, isLowerChar, isUpperChar,
        isDigitChar, Bool.or_eq_true, decide_eq_true_eq] at h
      omega

lemma trimBoth_eq_self (p : Char → Bool) (l : List Char)
    (hhead : ∀ c, l.head? = some c → p c = false)
    (hlast : ∀ c, l.getLast? = some c → p c = false) : trimBoth p l = l := by
  unfold trimBoth
  have h1 : l.dropWhile p = l := by
    cases l with
    | nil => rfl
    | cons a m => rw [List.dropWhile_cons, hhead a rfl]; simp
  rw [h1]
  have h2 : l.reverse.dropWhile p = l.reverse := by
    cases hr : l.reverse with
    | nil => rfl
    | cons a m =>
      rw [List.dropWhile_cons]
      have : l.getLast? = some a := by
        rw [← List.head?_reverse, hr]
        rfl
      rw [hlast a this]
      simp
  rw [h2, List.reverse_reverse]

/-- Matches strictly before a properly delimited occurrence end strictly
before it: a match cannot contain the non-absorbable delimiter character. -/
lemma matcher1_blocked (pre mid post : List Char) (hpre : delimBefore pre = true) :
    ∀ i j, i < pre.length → j ∈ matcher1 (pre ++ (mid ++ post)) i →
      j < pre.length := by
  intro i j hi hj
  by_contra hge
  push_neg at hge
  obtain ⟨_, hchars⟩ := matcher1_strict (pre ++ (mid ++ post)) i j hj
  obtain ⟨c, hc, hS⟩ := hchars (pre.length - 1) (by omega) (by omega)
  rw [tGet_pre pre mid post (pre.length - 1) (by omega),
    ← getLast?_eq_get? pre] at hc
  unfold delimBefore at hpre
  rw [hc] at hpre
  have h2 : (!isP1Extender c) = true := hpre
  rw [hS] at h2
  cases h2

/-- The scan of `re.findall` reaches and reports a properly delimited
occurrence: earlier matches cannot overlap it. -/
lemma scan_finds (t : List Char) (s : Nat) (email : List Char)
    (hlen : 1 ≤ email.length)
    (hend : s + email.length ≤ t.length)
    (hmatch : matchAt matcher1 t s = some (s + email.length))
    (hslice : sliceL t s (s + email.length) = email)
    (hblock : ∀ i j, i < s → j ∈ matcher1 t i → j < s) :
    ∀ fuel i, i ≤ s → t.length + 1 - i ≤ fuel → email ∈ scanA pm1 t fuel i := by
  intro fuel
  induction fuel with
  | zero => intro i hi hfuel; omega
  | succ m ih =>
    intro i hi hfuel
    by_cases hieq : i = s
    · subst hieq
      have hpm : pm1 t i = some (email, i + email.length) := by
        unfold pm1
        rw [hmatch]
        show some (sliceL t i (i + email.length), i + email.length)
          = some (email, i + email.length)
        rw [hslice]
      unfold scanA
      simp only [hpm]
      rw [if_pos (by omega)]
      exact List.mem_cons_self _ _
    · have hilt : i < s := by omega
      cases hpm : pm1 t i with
      | none =>
        unfold scanA
        simp only [hpm]
        rw [if_pos (by omega)]
        exact ih (i + 1) (by omega) (by omega)
      | some ce =>
        obtain ⟨cap, e⟩ := ce
        have hmem : e ∈ matcher1 t i := by
          unfold pm1 matchAt at hpm
          cases hh : (matcher1 t i).head? with
          | none => rw [hh] at hpm; cases hpm
          | some e2 =>
            rw [hh] at hpm
            have he : e = e2 := by
              have h3 : some (sliceL t i e2, e2) = some (cap, e) := hpm
              cases h3
              rfl
            rw [he]
            exact List.mem_of_mem_head? (by simp [hh])
        have hprog : i < e := (matcher1_strict t i e hmem).1
        have hlt : e < s := hblock i e hilt hmem
        unfold scanA
        simp only [hpm]
        rw [if_pos hprog]
        exact List.mem_cons_of_mem _ (ih e (by omega) (by omega))

/-- C1 (amended): for every well-formed `user@domain.tld` substring (in the
shape matched by the extractor's standard-email pattern) embedded in
arbitrary surrounding text at a properly delimited position (the adjacent
characters, if any, are not characters a pattern-1 match can absorb), and
whose text the Normalizer maps to exactly its own lower-casing (in
particular it contains no `at`/`dot` token that de-obfuscation would
rewrite, and it trips no exclusion rule), the Candidate Matcher produces a
RawCandidate that the Normalizer maps to exactly that address
(lower-cased), so the address itself reaches the Syntax Validator
unaltered. -/
theorem c1_matcher_normalizer_amended (pre L D T post : List Char)
    (hshape : p1shape L D T = true)
    (hpre : delimBefore pre = true) (hpost : delimAfter post = true)
    (hnorm : normalizeOne (emailOfParts L D T)
      = some (lowerList (emailOfParts L D T))) :
    lowerList (emailOfParts L D T) ∈
      normalizeSet (extractCandidates (pre ++ (emailOfParts L D T ++ post))) := by
  simp only [p1shape, Bool.and_eq_true] at hshape
  obtain ⟨⟨⟨⟨⟨⟨⟨⟨h1, h2⟩, h3⟩, h4⟩, h5⟩, h6⟩, h7⟩, h8⟩, h9⟩ := hshape
  have hLall : ∀ c ∈ L, isLocalChar c = true := List.all_eq_true.mp h2
  have hDall : ∀ c ∈ D, isDomainChar c = true := List.all_eq_true.mp h5
  have hTall : ∀ c ∈ T, isAlphaChar c = true := List.all_eq_true.mp h6
  have hLlen : L.length ≤ 64 := of_decide_eq_true h3
  have hT2 : 2 ≤ T.length := of_decide_eq_true h7
  have hT63 : T.length ≤ 63 := of_decide_eq_true h8
  have hDT : D.length + T.length ≤ 253 := of_decide_eq_true h9
  obtain ⟨c0, hc0h, hc0⟩ := headAlnum_ex h1
  obtain ⟨d0, hd0h, hd0⟩ := headAlnum_ex h4
  set email := emailOfParts L D T with hemail_def
  set t := pre ++ (email ++ post) with ht_def
  set s := pre.length with hs_def
  have hL1 : 1 ≤ L.length := by
    cases L
    · simp at hc0h
    · simp
  have heLen : email.length = L.length + D.length + T.length + 2 :=
    emailOfParts_length L D T
  have heLen2 : (emailOfParts L D T).length = L.length + D.length + T.length + 2 :=
    emailOfParts_length L D T
  have hD1 : 1 ≤ D.length := by
    cases D
    · simp at hd0h
    · simp
  -- the match at the start of the occurrence
  obtain ⟨junk, hm⟩ := matcher1_at_start pre L D T post
    ⟨c0, hc0h, hc0⟩ hLall hLlen ⟨d0, hd0h, hd0⟩ hDall hTall hT2 hT63 hDT
    hpre hpost
  have hmatch : matchAt matcher1 t s = some (s + email.length) := by
    unfold matchAt
    rw [hm]
    rfl
  -- the reported slice is the occurrence itself
  have hslice : sliceL t s (s + email.length) = email := by
    unfold sliceL
    rw [ht_def, hs_def, List.drop_left, Nat.add_sub_cancel_left, List.take_left]
  have hlen1 : 1 ≤ email.length := by omega
  have hend : s + email.length ≤ t.length := by
    rw [ht_def]
    simp [List.length_append]
  have hf1 : email ∈ findall1 t :=
    scan_finds t s email hlen1 hend hmatch hslice
      (matcher1_blocked pre email post hpre) (t.length + 1) 0 (by omega) (by omega)
  -- the candidate survives `.strip()` unchanged
  have hheadE : email.head? = some c0 := by
    rw [head?_eq_get?, hemail_def, emailGet_L L D T 0 (by omega), ← head?_eq_get?]
    exact hc0h
  have hlastE : ∃ c, email.getLast? = some c ∧ isAlphaChar c = true := by
    obtain ⟨c, hc, hmem⟩ := get?_lt T (T.length - 1) (by omega)
    refine ⟨c, ?_, hTall c hmem⟩
    rw [getLast?_eq_get?, hemail_def,
      show (emailOfParts L D T).length - 1
        = L.length + 2 + D.length + (T.length - 1) by omega,
      emailGet_T L D T (T.length - 1) (by omega)]
    exact hc
  have hstrip : trimBoth isSpacePy email = email := by
    apply trimBoth_eq_self
    · intro c hc
      rw [hheadE] at hc
      cases hc
      exact alnum_not_space hc0
    · intro c hc
      obtain ⟨c2, hc2, ha2⟩ := hlastE
      rw [hc2] at hc
      cases hc
      exact alnum_not_space (alpha_isAlnum ha2)
  -- membership in the candidate set
  have hbig : email ∈ (findall1 t ++ findall2 t ++ findall3 t ++ findall4 t ++
      findall5 t ++ findall6 t ++ findall7 t) := by
    simp only [List.mem_append]
    exact Or.inl (Or.inl (Or.inl (Or.inl (Or.inl (Or.inl hf1)))))
  have hcand : email ∈ extractCandidates t := by
    unfold extractCandidates
    apply List.mem_dedup.mpr
    have := List.mem_map_of_mem (trimBoth isSpacePy) hbig
    rw [hstrip] at this
    exact this
  -- the Normalizer maps it to the lower-cased address
  unfold normalizeSet
  exact List.mem_dedup.mpr (List.mem_filterMap.mpr ⟨email, hcand, hnorm⟩)

/-- C1 is false as stated: the text `"matt@gmail.com"` contains the
well-formed, properly delimited address `matt@gmail.com`, yet no raw
candidate normalizes to it — the Normalizer's de-obfuscation rewrites the
bare `at` inside `matt`, and the only normalized string produced is
`m@t@gmail.com`. -/
theorem c1_matcher_normalizer_counterexample :
    p1shape (strL "matt") (strL "gmail") (strL "com") = true ∧
    delimBefore [] = true ∧ delimAfter [] = true ∧
    emailOfParts (strL "matt") (strL "gmail") (strL "com")
      = strL "matt@gmail.com" ∧
    normalizeSet (extractCandidates (strL "matt@gmail.com"))
      = [strL "m@t@gmail.com"] ∧
    ¬ lowerList (strL "matt@gmail.com") ∈
        normalizeSet (extractCandidates (strL "matt@gmail.com")) := by
  refine ⟨by decide, by decide, by decide, by decide, by decide, by decide⟩

/-- Witness for the amended C1 at a concrete input: `user@gmail.com`
embedded in `"Email user@gmail.com, thanks"`. -/
theorem c1_matcher_normalizer_amended_witness :
    p1shape (strL "user") (strL "gmail") (strL "com") = true ∧
    delimBefore (strL "Email ") = true ∧
    delimAfter (strL ", thanks") = true ∧
    normalizeOne (emailOfParts (strL "user") (strL "gmail") (strL "com"))
      = some (lowerList (emailOfParts (strL "user") (strL "gmail") (strL "com"))) ∧
    lowerList (emailOfParts (strL "user") (strL "gmail") (strL "com")) ∈
      normalizeSet (extractCandidates (strL "Email " ++
        (emailOfParts (strL "user") (strL "gmail") (strL "com") ++ strL ", thanks"))) :=
  ⟨by decide, by decide, by decide, by decide,
    c1_matcher_normalizer_amended (strL "Email ") (strL "user") (strL "gmail")
      (strL "com") (strL ", thanks") (by decide) (by decide) (by decide) (by decide)⟩

/-! ## C2: the domain cache under sequential and interleaved execution -/

lemma getCountN_bump_self (k : List Char) :
    ∀ cs, getCountN (bumpCount k cs) k = getCountN cs k + 1 := by
  intro cs
  induction cs with
  | nil => simp [bumpCount, getCountN]
  | cons p rest ih =>
    obtain ⟨k2, n⟩ := p
    by_cases hk : k2 = k
    · subst hk
      simp [bumpCount, getCountN]
    · simp only [bumpCount, getCountN, if_neg hk]
      exact ih

lemma getCountN_bump_other (k2 k : List Char) (hne : k2 ≠ k) :
    ∀ cs, getCountN (bumpCount k2 cs) k = getCountN cs k := by
  intro cs
  induction cs with
  | nil => simp [bumpCount, getCountN, hne]
  | cons p rest ih =>
    obtain ⟨k3, n⟩ := p
    by_cases hk : k3 = k2
    · subst hk
      simp [bumpCount, getCountN, hne]
    · simp only [bumpCount, getCountN, if_neg hk]
      by_cases hk3 : k3 = k
      · simp [hk3]
      · simp only [if_neg hk3]
        exact ih

lemma processSeq_cached (rmx : List Char → MxOutcome) (ra : List Char → AOutcome) :
    ∀ doms (σ : CkState) (k : List Char) (r : DelivInfo),
      lookupA σ.cache k = some r →
      getCount (processSeq rmx ra doms σ) k = getCount σ k ∧
      lookupA (processSeq rmx ra doms σ).cache k = some r := by
  intro doms
  induction doms with
  | nil => intro σ k r hr; exact ⟨rfl, hr⟩
  | cons d ds ih =>
    intro σ k r hr
    unfold processSeq
    cases hl : lookupA σ.cache (lowerList d) with
    | some r2 => exact ih σ k r hr
    | none =>
      have hne : lowerList d ≠ k := by
        intro he
        rw [he] at hl
        rw [hl] at hr
        cases hr
      have hr2 : lookupA ((lowerList d, checkMxPure (rmx d) (ra d)) :: σ.cache) k
          = some r := by
        unfold lookupA
        rw [if_neg hne]
        exact hr
      have := ih ⟨(lowerList d, checkMxPure (rmx d) (ra d)) :: σ.cache,
        bumpCount (lowerList d) σ.counts⟩ k r hr2
      refine ⟨?_, this.2⟩
      rw [this.1]
      exact getCountN_bump_other (lowerList d) k hne σ.counts

lemma processSeq_fresh (rmx : List Char → MxOutcome) (ra : List Char → AOutcome) :
    ∀ doms (σ : CkState) (k : List Char),
      lookupA σ.cache k = none → getCount σ k = 0 →
      getCount (processSeq rmx ra doms σ) k
        = (if k ∈ doms.map lowerList then 1 else 0) ∧
      (lookupA (processSeq rmx ra doms σ).cache k).isSome
        = decide (k ∈ doms.map lowerList) := by
  intro doms
  induction doms with
  | nil =>
    intro σ k hnone hzero
    refine ⟨by simpa using hzero, by simp [processSeq, hnone]⟩
  | cons d ds ih =>
    intro σ k hnone hzero
    unfold processSeq
    cases hl : lookupA σ.cache (lowerList d) with
    | some r =>
      have hne : k ≠ lowerList d := by
        intro he
        rw [he, hl] at hnone
        cases hnone
      obtain ⟨hc1, hc2⟩ := ih σ k hnone hzero
      constructor
      · rw [hc1]
        simp [List.mem_cons, hne]
      · rw [hc2]
        simp [List.mem_cons, hne]
    | none =>
      by_cases hke : k = lowerList d
      · have hr2 : lookupA ((lowerList d, checkMxPure (rmx d) (ra d)) :: σ.cache) k
            = some (checkMxPure (rmx d) (ra d)) := by
          unfold lookupA
          rw [if_pos hke.symm]
        obtain ⟨hc1, hc2⟩ := processSeq_cached rmx ra ds
          ⟨(lowerList d, checkMxPure (rmx d) (ra d)) :: σ.cache,
            bumpCount (lowerList d) σ.counts⟩ k (checkMxPure (rmx d) (ra d)) hr2
        constructor
        · rw [hc1]
          show getCountN (bumpCount (lowerList d) σ.counts) k = _
          rw [← hke, getCountN_bump_self k σ.counts]
          have hz : getCountN σ.counts k = 0 := hzero
          rw [hz]
          simp [List.mem_cons, hke]
        · rw [hc2]
          simp [List.mem_cons, hke]
      · have hn2 : lookupA ((lowerList d, checkMxPure (rmx d) (ra d)) :: σ.cache) k
            = none := by
          unfold lookupA
          rw [if_neg (fun h => hke h.symm)]
          exact hnone
        have hz2 : getCount ⟨(lowerList d, checkMxPure (rmx d) (ra d)) :: σ.cache,
            bumpCount (lowerList d) σ.counts⟩ k = 0 := by
          show getCountN (bumpCount (lowerList d) σ.counts) k = 0
          rw [getCountN_bump_other (lowerList d) k (fun h => hke h.symm)]
          exact hzero
        obtain ⟨hc1, hc2⟩ := ih _ k hn2 hz2
        constructor
        · rw [hc1]
          simp [List.mem_cons, hke]
        · rw [hc2]
          simp [List.mem_cons, hke]

/-- C2 (amended): when lookups do not interleave (each domain's
check-resolve-write runs to completion before the next starts, the
uncontended behaviour of `_check_mx_with_fallback`), every distinct
lower-cased domain of the batch triggers exactly one DNS resolution over
the lifetime of the cache, later requests are answered from the cache, and
the cache holds an entry for a key if and only if some processed domain
lower-cases to it (it is populated after every lookup regardless of
outcome).  Under interleaved execution of the unsynchronized
check-resolve-write sequence the same domain can be resolved more than
once (see the counterexample). -/
theorem c2_cache_amended (rmx : List Char → MxOutcome) (ra : List Char → AOutcome)
    (doms : List (List Char)) (k : List Char) :
    getCount (processSeq rmx ra doms ⟨[], []⟩) k
      = (if k ∈ doms.map lowerList then 1 else 0) ∧
    (lookupA (processSeq rmx ra doms ⟨[], []⟩).cache k).isSome
      = decide (k ∈ doms.map lowerList) :=
  processSeq_fresh rmx ra doms ⟨[], []⟩ k rfl rfl

/-- C2 is false as stated: two records sharing the domain `acme.law`,
resolved by interleaved workers (both read the empty cache before either
writes), trigger two DNS resolution operations, not exactly one. -/
theorem c2_cache_counterexample :
    getCount (runSched (fun _ => .found 10 []) (fun _ => .found)
      [⟨strL "acme.law", .checkC⟩, ⟨strL "acme.law", .checkC⟩] ⟨[], []⟩
      [0, 1, 0, 0, 1, 1]).1 (strL "acme.law") = 2 ∧
    ¬ getCount (runSched (fun _ => .found 10 []) (fun _ => .found)
      [⟨strL "acme.law", .checkC⟩, ⟨strL "acme.law", .checkC⟩] ⟨[], []⟩
      [0, 1, 0, 0, 1, 1]).1 (strL "acme.law") = 1 := by
  refine ⟨by decide, by decide⟩

/-! ## C3, C4, C10: the Deliverability Checker's classification -/

lemma goDns_map_filter (rmx : List Char → MxOutcome) (ra : List Char → AOutcome)
    (hci1 : ∀ x, rmx (lowerList x) = rmx x)
    (hci2 : ∀ x, ra (lowerList x) = ra x) :
    ∀ es (cache : MxCache), cacheOk rmx ra cache →
      (goDns rmx ra es cache).1
        = ((es.map fun v => (v, checkMxPure (rmx v.domain) (ra v.domain))).filter
            fun p => keepDns p.2) ∧
      cacheOk rmx ra (goDns rmx ra es cache).2 := by
  intro es
  induction es with
  | nil => intro cache hok; exact ⟨rfl, hok⟩
  | cons v vs ih =>
    intro cache hok
    have hval : (checkMxCached rmx ra cache v.domain).1
        = checkMxPure (rmx v.domain) (ra v.domain) := by
      unfold checkMxCached
      cases hl : lookupA cache (lowerList v.domain) with
      | some r =>
        have := hok (lowerList v.domain) r hl
        rw [this, hci1 v.domain, hci2 v.domain]
      | none => rfl
    have hok2 : cacheOk rmx ra (checkMxCached rmx ra cache v.domain).2 := by
      unfold checkMxCached
      cases hl : lookupA cache (lowerList v.domain) with
      | some r => exact hok
      | none =>
        intro k r hr
        unfold lookupA at hr
        by_cases hk : lowerList v.domain = k
        · rw [if_pos hk] at hr
          cases hr
          rw [← hk, hci1 v.domain, hci2 v.domain]
        · rw [if_neg hk] at hr
          exact hok k r hr
    obtain ⟨ih1, ih2⟩ := ih (checkMxCached rmx ra cache v.domain).2 hok2
    constructor
    · show (if keepDns (checkMxCached rmx ra cache v.domain).1 then _ else _) = _
      rw [hval, ih1, List.map_cons, List.filter_cons]
    · exact ih2

/-- C3: the Deliverability Checker classifies each domain by the outcome of
its MX lookup — success gives `has_mx`, the record count and the minimum
preference; `NXDOMAIN`/`NoAnswer` fall back to an A-record lookup which
sets `has_a_record` when it finds records; any other MX failure
optimistically sets `has_mx` — and `_validate_dns_batch` keeps a record if
and only if `has_mx || has_a_record` holds for its domain's result. -/
theorem c3_dns_classification (rmx : List Char → MxOutcome)
    (ra : List Char → AOutcome) (d : List Char)
    (hci1 : ∀ x, rmx (lowerList x) = rmx x)
    (hci2 : ∀ x, ra (lowerList x) = ra x) :
    (∀ p ps, rmx d = .found p ps →
      checkMxPure (rmx d) (ra d)
        = ⟨true, false, minPref p ps, ps.length + 1⟩) ∧
    ((rmx d = .nxdomain ∨ rmx d = .noAnswer) →
      checkMxPure (rmx d) (ra d)
        = ⟨false, decide (ra d = .found), 999, 0⟩) ∧
    (rmx d = .otherErr →
      checkMxPure (rmx d) (ra d) = ⟨true, false, 999, 0⟩) ∧
    (∀ r : DelivInfo, keepDns r = (r.has_mx || r.has_a_record)) ∧
    (∀ es : List ValidatedEmail,
      validateDnsBatch rmx ra es
        = (es.map fun v => (v, checkMxPure (rmx v.domain) (ra v.domain))).filter
            fun p => keepDns p.2) := by
  refine ⟨?_, ?_, ?_, fun r => rfl, ?_⟩
  · intro p ps hp
    rw [hp]
    rfl
  · intro hp
    rcases hp with hp | hp <;> rw [hp] <;> cases hra : ra d <;> rfl
  · intro hp
    rw [hp]
    rfl
  · intro es
    exact (goDns_map_filter rmx ra hci1 hci2 es [] (fun k r hr => by cases hr)).1

/-- Witness for C3 at a concrete input: a constant (hence trivially
case-insensitive) mock resolver with MX records of preferences 5 and 10,
and a failing A lookup. -/
theorem c3_dns_classification_witness :
    checkMxPure ((fun _ : List Char => MxOutcome.found 5 [10]) (strL "a.com"))
        ((fun _ : List Char => AOutcome.failed) (strL "a.com"))
      = ⟨true, false, 5, 2⟩ ∧
    validateDnsBatch (fun _ => MxOutcome.found 5 [10]) (fun _ => AOutcome.failed)
        [⟨strL "x@a.com", strL "x@a.com", strL "x", strL "a.com"⟩]
      = [(⟨strL "x@a.com", strL "x@a.com", strL "x", strL "a.com"⟩,
          ⟨true, false, 5, 2⟩)] := by
  have h := c3_dns_classification (fun _ => MxOutcome.found 5 [10])
    (fun _ => AOutcome.failed) (strL "a.com") (fun _ => rfl) (fun _ => rfl)
  refine ⟨?_, ?_⟩
  · exact h.1 5 [10] rfl
  · rw [h.2.2.2.2 [⟨strL "x@a.com", strL "x@a.com", strL "x", strL "a.com"⟩]]
    decide

/-- C4: a transient MX failure (any error other than NXDOMAIN/NoAnswer)
yields `has_mx = true` with the sentinel `mx_priority = 999` and
`mx_count = 0`, so such a record can earn neither the `+15` strong-MX
bonus (`has_mx ∧ mx_priority < 20`) nor the `+10` multiple-MX bonus
(`mx_count ≥ 2`) in the Scorer. -/
theorem c4_transient_sentinel_no_bonus (a : AOutcome) :
    checkMxPure .otherErr a = ⟨true, false, 999, 0⟩ ∧
    (checkMxPure .otherErr a).has_mx = true ∧
    (checkMxPure .otherErr a).mx_priority = 999 ∧
    (checkMxPure .otherErr a).mx_count = 0 ∧
    mxPrioBonus (checkMxPure .otherErr a) = 0 ∧
    mxCountBonus (checkMxPure .otherErr a) = 0 :=
  ⟨rfl, rfl, rfl, rfl, rfl, rfl⟩

/-- C10: when the MX lookup reports NXDOMAIN or NoAnswer and the A-record
fallback then fails for any reason (the bare `except: pass`), the cached
DeliverabilityInfo is all-false (the benefit-of-the-doubt rule is never
applied to the fallback), the cache is still populated, and the record is
excluded from the batch. -/
theorem c10_a_fallback_failure (rmx : List Char → MxOutcome)
    (ra : List Char → AOutcome) (cache : MxCache) (d : List Char)
    (v : ValidatedEmail) (vs : List ValidatedEmail)
    (hmiss : lookupA cache (lowerList d) = none)
    (hmx : rmx d = .nxdomain ∨ rmx d = .noAnswer)
    (ha : ra d = .failed)
    (hdom : v.domain = d) :
    (checkMxCached rmx ra cache d).1 = ⟨false, false, 999, 0⟩ ∧
    (checkMxCached rmx ra cache d).2
      = (lowerList d, (⟨false, false, 999, 0⟩ : DelivInfo)) :: cache ∧
    keepDns (checkMxCached rmx ra cache d).1 = false ∧
    (goDns rmx ra (v :: vs) cache).1
      = (goDns rmx ra vs
          ((lowerList d, (⟨false, false, 999, 0⟩ : DelivInfo)) :: cache)).1 := by
  have hpure : checkMxPure (rmx d) (ra d) = ⟨false, false, 999, 0⟩ := by
    rcases hmx with hp | hp <;> rw [hp, ha] <;> rfl
  have hcc : checkMxCached rmx ra cache d
      = (⟨false, false, 999, 0⟩,
         (lowerList d, (⟨false, false, 999, 0⟩ : DelivInfo)) :: cache) := by
    unfold checkMxCached
    rw [hmiss, hpure]
  refine ⟨by rw [hcc], by rw [hcc], by rw [hcc]; rfl, ?_⟩
  show (if keepDns (checkMxCached rmx ra cache v.domain).1
      then (v, (checkMxCached rmx ra cache v.domain).1)
        :: (goDns rmx ra vs (checkMxCached rmx ra cache v.domain).2).1
      else (goDns rmx ra vs (checkMxCached rmx ra cache v.domain).2).1) = _
  rw [hdom, hcc]
  rfl

/-- Witness for C10 at a concrete input: domain `b.cc` with NXDOMAIN and a
failing A fallback; the record `a@b.cc` is dropped and the all-false
result is cached. -/
theorem c10_a_fallback_failure_witness :
    lookupA [] (lowerList (strL "b.cc")) = none ∧
    ((fun _ : List Char => MxOutcome.nxdomain) (strL "b.cc") = .nxdomain ∨
      (fun _ : List Char => MxOutcome.nxdomain) (strL "b.cc") = .noAnswer) ∧
    (fun _ : List Char => AOutcome.failed) (strL "b.cc") = .failed ∧
    (checkMxCached (fun _ => MxOutcome.nxdomain) (fun _ => AOutcome.failed) []
      (strL "b.cc")).1 = ⟨false, false, 999, 0⟩ ∧
    (goDns (fun _ => MxOutcome.nxdomain) (fun _ => AOutcome.failed)
      [⟨strL "a@b.cc", strL "a@b.cc", strL "a", strL "b.cc"⟩] []).1 = [] := by
  have h := c10_a_fallback_failure (fun _ => MxOutcome.nxdomain)
    (fun _ => AOutcome.failed) [] (strL "b.cc")
    ⟨strL "a@b.cc", strL "a@b.cc", strL "a", strL "b.cc"⟩ []
    rfl (Or.inl rfl) rfl rfl
  refine ⟨rfl, Or.inl rfl, rfl, h.1, ?_⟩
  rw [h.2.2.2]
  rfl

/-! ## C5: clamping and confidence -/

lemma confidence_iffs (s : Int) :
    (scoreToConfidence s = .high ↔ 70 ≤ s) ∧
    (scoreToConfidence s = .medium ↔ 40 ≤ s ∧ s < 70) ∧
    (scoreToConfidence s = .low ↔ s < 40) := by
  unfold scoreToConfidence
  split_ifs with h1 h2 <;> refine ⟨?_, ?_, ?_⟩ <;> simp_all <;> omega

/-- C5: every ScoredEmail produced by the Scorer has an integer score
clamped into [0, 100], and its confidence field is exactly the threshold
function of the score: high iff ≥ 70, medium iff in [40, 70), low iff
< 40; in particular 75 is high, 55 medium, 10 low, and the boundaries
70, 40 and 39 give high, medium and low. -/
theorem c5_score_clamp_confidence (es : List (ValidatedEmail × DelivInfo))
    (context : List Char) (r : ScoredEmail) (hr : r ∈ scoreEmails es context) :
    0 ≤ r.score ∧ r.score ≤ 100 ∧
    r.confidence = scoreToConfidence r.score ∧
    (r.confidence = .high ↔ 70 ≤ r.score) ∧
    (r.confidence = .medium ↔ 40 ≤ r.score ∧ r.score < 70) ∧
    (r.confidence = .low ↔ r.score < 40) ∧
    scoreToConfidence 75 = .high ∧ scoreToConfidence 55 = .medium ∧
    scoreToConfidence 10 = .low ∧ scoreToConfidence 70 = .high ∧
    scoreToConfidence 40 = .medium ∧ scoreToConfidence 39 = .low := by
  simp only [scoreEmails] at hr
  rw [List.mem_map] at hr
  obtain ⟨vd, hvd, heq⟩ := hr
  subst heq
  have h0 : (0 : Int) ≤ clampScore (rawScore vd.1 vd.2 (lowerList context)) :=
    le_max_left 0 _
  have h100 : clampScore (rawScore vd.1 vd.2 (lowerList context)) ≤ 100 :=
    max_le (by norm_num) (min_le_left _ _)
  obtain ⟨hh, hm, hl⟩ := confidence_iffs
    (clampScore (rawScore vd.1 vd.2 (lowerList context)))
  exact ⟨h0, h100, rfl, hh, hm, hl, by decide, by decide, by decide,
    by decide, by decide, by decide⟩

/-- Witness for C5 at a concrete input: an empty record in empty context
scores the neutral 50 with medium confidence. -/
theorem c5_score_clamp_confidence_witness :
    (⟨⟨[], [], [], []⟩, ⟨false, false, 999, 0⟩, 50, .medium⟩ : ScoredEmail)
      ∈ scoreEmails [(⟨[], [], [], []⟩, ⟨false, false, 999, 0⟩)] [] ∧
    0 ≤ (⟨⟨[], [], [], []⟩, ⟨false, false, 999, 0⟩, 50, .medium⟩ : ScoredEmail).score ∧
    (⟨⟨[], [], [], []⟩, ⟨false, false, 999, 0⟩, 50, .medium⟩ : ScoredEmail).score ≤ 100 ∧
    (⟨⟨[], [], [], []⟩, ⟨false, false, 999, 0⟩, 50, .medium⟩ : ScoredEmail).confidence
      = scoreToConfidence
        (⟨⟨[], [], [], []⟩, ⟨false, false, 999, 0⟩, 50, .medium⟩ : ScoredEmail).score := by
  have h := c5_score_clamp_confidence [(⟨[], [], [], []⟩, ⟨false, false, 999, 0⟩)] []
    ⟨⟨[], [], [], []⟩, ⟨false, false, 999, 0⟩, 50, .medium⟩ (by decide)
  exact ⟨by decide, h.1, h.2.1, h.2.2.1⟩

/-! ## C6: the Result Filter -/

lemma insertDesc_perm (x : ScoredEmail) :
    ∀ l, (insertDesc x l).Perm (x :: l) := by
  intro l
  induction l with
  | nil => exact List.Perm.refl _
  | cons y ys ih =>
    unfold insertDesc
    by_cases h : y.score ≤ x.score
    · rw [if_pos h]
    · rw [if_neg h]
      exact (ih.cons y).trans (List.Perm.swap x y ys)

lemma sortDesc_perm : ∀ l, (sortDesc l).Perm l := by
  intro l
  induction l with
  | nil => exact List.Perm.refl _
  | cons x xs ih => exact (insertDesc_perm x (sortDesc xs)).trans (ih.cons x)

lemma mem_insertDesc (x z : ScoredEmail) (l : List ScoredEmail)
    (h : z ∈ insertDesc x l) : z = x ∨ z ∈ l := by
  have := (insertDesc_perm x l).mem_iff.mp h
  simpa using this

lemma insertDesc_pairwise (x : ScoredEmail) :
    ∀ l, List.Pairwise (fun a b => b.score ≤ a.score) l →
      List.Pairwise (fun a b => b.score ≤ a.score) (insertDesc x l) := by
  intro l
  induction l with
  | nil => intro _; simp [insertDesc]
  | cons y ys ih =>
    intro hp
    obtain ⟨hy, hys⟩ := List.pairwise_cons.mp hp
    unfold insertDesc
    by_cases h : y.score ≤ x.score
    · rw [if_pos h]
      refine List.pairwise_cons.mpr ⟨?_, hp⟩
      intro z hz
      rcases List.mem_cons.mp hz with rfl | hz2
      · exact h
      · have := hy z hz2
        omega
    · rw [if_neg h]
      refine List.pairwise_cons.mpr ⟨?_, ih hys⟩
      intro z hz
      rcases mem_insertDesc x z ys hz with rfl | hz2
      · omega
      · exact hy z hz2

lemma sortDesc_pairwise :
    ∀ l, List.Pairwise (fun a b => b.score ≤ a.score) (sortDesc l) := by
  intro l
  induction l with
  | nil => simp [sortDesc]
  | cons x xs ih => exact insertDesc_pairwise x (sortDesc xs) ih

lemma insertDesc_filter_eq (x : ScoredEmail) (sc : Int) (hx : x.score = sc) :
    ∀ l, (insertDesc x l).filter (fun e => decide (e.score = sc))
      = x :: l.filter (fun e => decide (e.score = sc)) := by
  intro l
  induction l with
  | nil => simp [insertDesc, List.filter, hx]
  | cons y ys ih =>
    unfold insertDesc
    by_cases h : y.score ≤ x.score
    · rw [if_pos h]
      simp [List.filter_cons, hx]
    · rw [if_neg h]
      have hy : ¬(y.score = sc) := by omega
      simp [List.filter_cons, hy, ih]

lemma insertDesc_filter_ne (x : ScoredEmail) (sc : Int) (hx : ¬x.score = sc) :
    ∀ l, (insertDesc x l).filter (fun e => decide (e.score = sc))
      = l.filter (fun e => decide (e.score = sc)) := by
  intro l
  induction l with
  | nil => simp [insertDesc, List.filter, hx]
  | cons y ys ih =>
    unfold insertDesc
    by_cases h : y.score ≤ x.score
    · rw [if_pos h]
      simp [List.filter_cons, hx]
    · rw [if_neg h]
      simp [List.filter_cons, ih]

lemma sortDesc_filter (sc : Int) :
    ∀ l, (sortDesc l).filter (fun e => decide (e.score = sc))
      = l.filter (fun e => decide (e.score = sc)) := by
  intro l
  induction l with
  | nil => rfl
  | cons x xs ih =>
    show (insertDesc x (sortDesc xs)).filter _ = _
    by_cases hx : x.score = sc
    · rw [insertDesc_filter_eq x sc hx (sortDesc xs), ih]
      simp [List.filter_cons, hx]
    · rw [insertDesc_filter_ne x sc hx (sortDesc xs), ih]
      simp [List.filter_cons, hx]

/-- C6: the Result Filter outputs exactly the records with score ≥ 20 and
at least one deliverability signal (as a multiset: a permutation of the
filtered input), sorted by score in non-increasing order, and the sort is
stable: for each score value, the output lists the records of that score
in their input order. -/
theorem c6_final_filter_sorted_stable (es : List ScoredEmail) (sc : Int)
    (r : ScoredEmail) :
    keepFinal r = (decide (20 ≤ r.score) && (r.dns.has_mx || r.dns.has_a_record)) ∧
    finalFilter es = sortDesc (es.filter keepFinal) ∧
    (finalFilter es).Perm (es.filter keepFinal) ∧
    List.Pairwise (fun a b => b.score ≤ a.score) (finalFilter es) ∧
    (finalFilter es).filter (fun e => decide (e.score = sc))
      = (es.filter keepFinal).filter (fun e => decide (e.score = sc)) := by
  refine ⟨?_, rfl, sortDesc_perm _, sortDesc_pairwise _, sortDesc_filter sc _⟩
  unfold keepFinal
  split_ifs with h1 h2
  · have : ¬(20 ≤ r.score) := by omega
    simp [this]
  · rcases Bool.and_eq_true _ _ |>.mp h2 with ⟨hm, ha⟩
    simp only [Bool.not_eq_true'] at hm ha
    simp [hm, ha]
  · have h20 : 20 ≤ r.score := by omega
    cases hm : r.dns.has_mx with
    | true => simp [h20]
    | false =>
      cases ha : r.dns.has_a_record with
      | true => simp [h20]
      | false => rw [hm, ha] at h2; simp at h2

/-! ## C7: the end-to-end scenario -/

/-- C7: on the page text
`"Contact our partner at jane.doe@acme.law or info@acme.law for more."`
with `acme.law` resolving to a single MX record of preference 10, the
pipeline keeps both addresses (they pass syntax and deliverability),
scores `jane.doe@acme.law` strictly higher (100 vs. 70), and the Result
Filter places it first. -/
theorem c7_end_to_end_scenario :
    (extractAllEmails (fun _ => .found 10 []) (fun _ => .found)
        (strL "Contact our partner at jane.doe@acme.law or info@acme.law for more.")).map
        (fun r => (r.email.normalized, r.score))
      = [(strL "jane.doe@acme.law", 100), (strL "info@acme.law", 70)] := by
  decide

/-! ## C8: normalizing an obfuscated candidate -/

/-- C8: any letter-case variant of the raw candidate
`"John [at] LawFirm [dot] com"` is normalized to exactly
`"john@lawfirm.com"` (no exclusion rule rejects it). -/
theorem c8_normalize_obfuscated (s : List Char)
    (h : lowerList s = strL "john [at] lawfirm [dot] com") :
    normalizeOne s = some (strL "john@lawfirm.com") := by
  unfold normalizeOne
  rw [h]
  decide

/-- Witness for C8 at the concrete mixed-case candidate. -/
theorem c8_normalize_obfuscated_witness :
    lowerList (strL "John [at] LawFirm [dot] com")
      = strL "john [at] lawfirm [dot] com" ∧
    normalizeOne (strL "John [at] LawFirm [dot] com")
      = some (strL "john@lawfirm.com") :=
  ⟨by decide, c8_normalize_obfuscated (strL "John [at] LawFirm [dot] com") (by decide)⟩

/-! ## C9: the keyword window looks only at the first occurrence -/

/-- C9: the Scorer's +15 relevance-keyword bonus is decided solely by the
200-character window around the first occurrence of the email in the
lower-cased context: if the email occurs again later with a keyword only
near that later occurrence, the bonus is still not earned. -/
theorem c9_keyword_window_first_occurrence (email ctx : List Char) (i j : Nat)
    (hfirst : indexOfSub ctx email = some i)
    (hoccur : sliceL ctx j (j + email.length) = email)
    (hij : i < j)
    (hkwj : kwHitWindow ctx j = true)
    (hkwi : kwHitWindow ctx i = false) :
    keywordBonus email ctx = 0 := by
  unfold keywordBonus
  simp [hfirst, hkwi]

set_option maxRecDepth 20000 in
/-- Witness for C9 at a concrete input: `a@b.cc` occurs at 0 and again at
265; `partner` sits only near the later occurrence, and the bonus is 0. -/
theorem c9_keyword_window_witness :
    indexOfSub (strL "a@b.cc" ++ (List.replicate 250 'x' ++ strL " partner a@b.cc"))
        (strL "a@b.cc") = some 0 ∧
    sliceL (strL "a@b.cc" ++ (List.replicate 250 'x' ++ strL " partner a@b.cc"))
        265 (265 + (strL "a@b.cc").length) = strL "a@b.cc" ∧
    0 < 265 ∧
    kwHitWindow (strL "a@b.cc" ++ (List.replicate 250 'x' ++ strL " partner a@b.cc"))
        265 = true ∧
    kwHitWindow (strL "a@b.cc" ++ (List.replicate 250 'x' ++ strL " partner a@b.cc"))
        0 = false ∧
    keywordBonus (strL "a@b.cc")
        (strL "a@b.cc" ++ (List.replicate 250 'x' ++ strL " partner a@b.cc")) = 0 :=
  ⟨by decide, by decide, by decide, by decide, by decide,
    c9_keyword_window_first_occurrence (strL "a@b.cc")
      (strL "a@b.cc" ++ (List.replicate 250 'x' ++ strL " partner a@b.cc"))
      0 265 (by decide) (by decide) (by decide) (by decide) (by decide)⟩
